import Mathlib

/-!
# Doppler_Shift: the physics core and the input loop of `src/main.c`

The C program computes with `float`.  Two readings of that arithmetic are
embedded here.

* The exact reading (`namespace Doppler`): every `float` is an element of a
  linearly ordered field `α` and every operation is the exact field operation;
  casts between `double` and `float` are the identity and `cosf`, which comes
  from the C library, is a parameter.  It carries the statements about which
  expression the program evaluates (the formulas, their cases, the value stored
  as radial speed) and about the clamps of the input loop.
* The binary32 reading (`namespace Doppler.Binary32`): every `float` is a
  binary32 value and every operation rounds to nearest, ties to even, with
  overflow to infinity and NaN, as the C implementation does with
  `FLT_EVAL_METHOD` 0 and no contraction.  `cosf` is again a parameter.  It
  carries the statements whose truth depends on rounding: exact equality,
  strict order and bounds on the values returned.

All definitions are computable.
-/

namespace Doppler

variable {α : Type} [LinearOrderedField α]

/-- The constant `M_PI` (main.c:17, the same literal `<math.h>` provides). -/
def M_PI : α := 3.14159265358979323846

/-- Speed of sound in air at 20C, m/s (main.c:21). -/
def SPEED_OF_SOUND : α := 343.0

/-- Degrees to radians (main.c:24): `d * (float)M_PI / 180.0f`. -/
def deg2rad (d : α) : α := d * M_PI / 180.0

/-- Simulator state and parameters (main.c:27-38). -/
structure DopplerState (α : Type) where
  baseFreq : α
  distance : α
  angleDeg : α
  speed : α
  movingSource : Bool
  showHelp : Bool
  showScreenshots : Bool

/-- What `ComputeDoppler` stores through its two out-pointers: `*fObserved`
always, `*radialSpeed` only when that pointer is not null (`none` when it is). -/
structure DopplerOut (α : Type) where
  fObserved : α
  radialSpeed : Option α

/-- The value of the local `denom` at the division of main.c:95, for a radial
speed `vr` (main.c:93-94): `c - vr`, replaced by `1e-3` or `-1e-3` when its
absolute value is below `1e-3`. -/
def sourceDenom (vr : α) : α :=
  let denom := SPEED_OF_SOUND - vr
  if |denom| < 1e-3 then (if denom ≥ 0 then 1e-3 else -1e-3) else denom

/-- The function `ComputeDoppler` (main.c:74-100).  `radialSpeed` tells whether
the `radialSpeed` out-pointer is non-null. -/
def ComputeDoppler (cosf : α → α) (st : DopplerState α) (radialSpeed : Bool) :
    DopplerOut α :=
  let vr := st.speed * cosf (deg2rad st.angleDeg)
  let f0 := st.baseFreq
  let c : α := SPEED_OF_SOUND
  { radialSpeed := if radialSpeed then some vr else none
    fObserved :=
      if st.movingSource then
        let denom := sourceDenom vr
        f0 * c / denom
      else
        f0 * (c + vr) / c }

/-- The input of one frame as `main` polls it (main.c:195-205): the frame
time and, per key, what `IsKeyDown` (held keys) or `IsKeyPressed` (`S`, `H`)
answers. -/
structure FrameInput (α : Type) where
  dt : α
  KEY_RIGHT : Bool
  KEY_LEFT : Bool
  KEY_UP : Bool
  KEY_DOWN : Bool
  KEY_S : Bool
  KEY_H : Bool
  KEY_LEFT_BRACKET : Bool
  KEY_RIGHT_BRACKET : Bool
  KEY_PAGE_UP : Bool
  KEY_PAGE_DOWN : Bool

/-- The state `main` starts from (main.c:176-183). -/
def initialState : DopplerState α :=
  { baseFreq := 1000.0
    distance := 5.0
    angleDeg := 0.0
    speed := 20.0
    movingSource := true
    showHelp := true
    showScreenshots := false }

/-- The key adjustments of the main loop (main.c:195-205), in source order. -/
def adjustControls (inp : FrameInput α) (st : DopplerState α) : DopplerState α :=
  let dt := inp.dt
  let st := if inp.KEY_RIGHT then { st with angleDeg := st.angleDeg + 60.0 * dt } else st
  let st := if inp.KEY_LEFT then { st with angleDeg := st.angleDeg - 60.0 * dt } else st
  let st := if inp.KEY_UP then { st with speed := st.speed + 20.0 * dt } else st
  let st := if inp.KEY_DOWN then { st with speed := st.speed - 20.0 * dt } else st
  let st := if inp.KEY_S then { st with movingSource := !st.movingSource } else st
  let st := if inp.KEY_H then { st with showHelp := !st.showHelp } else st
  let st := if inp.KEY_LEFT_BRACKET then { st with baseFreq := st.baseFreq - 50.0 * dt } else st
  let st := if inp.KEY_RIGHT_BRACKET then { st with baseFreq := st.baseFreq + 50.0 * dt } else st
  let st := if inp.KEY_PAGE_UP then { st with distance := st.distance + 5.0 * dt } else st
  let st := if inp.KEY_PAGE_DOWN then { st with distance := st.distance - 5.0 * dt } else st
  st

/-- The three clamps that follow the key adjustments (main.c:207-209). -/
def clampControls (st : DopplerState α) : DopplerState α :=
  let st := if st.speed < 0.0 then { st with speed := 0.0 } else st
  let st := if st.baseFreq < 1.0 then { st with baseFreq := 1.0 } else st
  let st := if st.distance < 0.5 then { st with distance := 0.5 } else st
  st

/-- The control block of the main loop (main.c:195-209): the key adjustments,
then the three clamps. -/
def updateControls (inp : FrameInput α) (st : DopplerState α) : DopplerState α :=
  clampControls (adjustControls inp st)

/-- One iteration of the main loop as far as the simulation state goes
(main.c:189-236): the control block, then `ComputeDoppler(&st, &fObs, &vr)` on
the updated state; the pair is what the HUD is given. -/
def frame (cosf : α → α) (inp : FrameInput α) (st : DopplerState α) :
    DopplerState α × DopplerOut α :=
  let st1 := updateControls inp st
  (st1, ComputeDoppler cosf st1 true)

/-- The state after the main loop has run over the given frames, oldest first. -/
def runFrames (cosf : α → α) (inputs : List (FrameInput α)) : DopplerState α :=
  inputs.foldl (fun st inp => (frame cosf inp st).1) initialState

/-- The states `ComputeDoppler` is called with from the main loop over the
given frames, oldest first. -/
def loopCalls (cosf : α → α) : List (FrameInput α) → DopplerState α → List (DopplerState α)
  | [], _ => []
  | inp :: rest, st =>
      let st1 := (frame cosf inp st).1
      st1 :: loopCalls cosf rest st1

/-! ## The binary32 reading -/

namespace Binary32

/-- The values of a `float`.  A finite value is `k * 2 ^ (-149)` for an integer
`k`; every finite binary32 number has this form, and the operations below only
produce such `k` as binary32 has (see `Representable`).  The two zeros are one
value: the modelled code never divides by a zero, so the sign of a zero is
never observed. -/
inductive F32 where
  | fin (k : ℤ)
  | inf (negative : Bool)
  | nan
  deriving DecidableEq

/-- The number of low bits a magnitude `q` (in units of `2 ^ (-149)`) loses in
binary32: 0 below `2 ^ 24`, otherwise the least `s` with `q < 2 ^ (24 + s)`,
capped by the fuel. -/
def expShift : ℕ → ℕ → ℕ
  | 0, _ => 0
  | fuel + 1, q => if q < 2 ^ 24 then 0 else expShift fuel (q / 2) + 1

/-- The quotient `a / d` rounded to the nearest integer, ties to even. -/
def roundHalfEven (a d : ℕ) : ℕ :=
  let q := a / d
  let r := a % d
  if 2 * r < d then q else if d < 2 * r then q + 1 else if q % 2 = 0 then q else q + 1

/-- The magnitude `a / d` (in units of `2 ^ (-149)`) rounded to 24 significant
bits, ties to even; below `2 ^ 24` units the spacing is one unit (subnormals and
the lowest normal binade). -/
def roundMag (a d : ℕ) : ℕ :=
  let s := expShift 254 (a / d)
  roundHalfEven a (d * 2 ^ s) * 2 ^ s

/-- The quotient `n / d` (in units of `2 ^ (-149)`) rounded to nearest, ties to
even, before the overflow test. -/
def roundInt (n : ℤ) (d : ℕ) : ℤ :=
  if n < 0 then -(roundMag n.natAbs d : ℤ) else (roundMag n.natAbs d : ℤ)

/-- The overflow test: a rounded magnitude of `2 ^ 128` or more is an infinity. -/
def ofInt (k : ℤ) : F32 :=
  if 2 ^ 128 * 2 ^ 149 ≤ k.natAbs then F32.inf (decide (k < 0)) else F32.fin k

/-- The binary32 value of the quotient `n / d` (in units of `2 ^ (-149)`). -/
def round (n : ℤ) (d : ℕ) : F32 := ofInt (roundInt n d)

/-- The integers `k` for which `k * 2 ^ (-149)` is a finite binary32 number:
below the overflow threshold and a multiple of the spacing of its binade. -/
def Representable (k : ℤ) : Prop :=
  k.natAbs < 2 ^ 128 * 2 ^ 149 ∧ 2 ^ expShift 254 k.natAbs ∣ k.natAbs

instance (k : ℤ) : Decidable (Representable k) := by
  unfold Representable
  infer_instance

/-- Unary minus. -/
def F32.neg : F32 → F32
  | .fin k => .fin (-k)
  | .inf s => .inf (!s)
  | .nan => .nan

/-- The function `fabsf`. -/
def F32.abs : F32 → F32
  | .fin k => .fin (k.natAbs : ℤ)
  | .inf _ => .inf false
  | .nan => .nan

/-- The operation `+` on `float`. -/
def F32.add : F32 → F32 → F32
  | .fin a, .fin b => round (a + b) 1
  | .fin _, .inf s => .inf s
  | .inf s, .fin _ => .inf s
  | .inf s, .inf t => if s = t then .inf s else .nan
  | _, _ => .nan

/-- The operation `-` on `float`. -/
def F32.sub (x y : F32) : F32 := F32.add x (F32.neg y)

/-- The operation `*` on `float`. -/
def F32.mul : F32 → F32 → F32
  | .fin a, .fin b => round (a * b) (2 ^ 149)
  | .fin a, .inf s => if a = 0 then .nan else .inf (xor (decide (a < 0)) s)
  | .inf s, .fin b => if b = 0 then .nan else .inf (xor s (decide (b < 0)))
  | .inf s, .inf t => .inf (xor s t)
  | _, _ => .nan

/-- The operation `/` on `float`.  A zero divisor is taken as `+0`; the
modelled code never divides by a zero. -/
def F32.div : F32 → F32 → F32
  | .fin a, .fin b =>
      if b = 0 then (if a = 0 then .nan else .inf (decide (a < 0)))
      else round (if b < 0 then -(a * 2 ^ 149) else a * 2 ^ 149) b.natAbs
  | .fin _, .inf _ => .fin 0
  | .inf s, .fin b => .inf (xor s (decide (b < 0)))
  | _, _ => .nan

/-- The comparison `<` on `float`: false when an operand is NaN. -/
def F32.lt : F32 → F32 → Bool
  | .fin a, .fin b => decide (a < b)
  | .fin _, .inf s => !s
  | .inf s, .fin _ => s
  | .inf s, .inf t => s && !t
  | _, _ => false

/-- The comparison `<=` on `float` (`x >= y` is `F32.le y x`): false when an
operand is NaN. -/
def F32.le : F32 → F32 → Bool
  | .fin a, .fin b => decide (a ≤ b)
  | .fin _, .inf s => !s
  | .inf s, .fin _ => s
  | .inf s, .inf t => s || !t
  | _, _ => false

/-- The `float` a decimal constant `n / d` of the source denotes. -/
def lit (n : ℤ) (d : ℕ) : F32 := round (n * 2 ^ 149) d

/-- The constant `(float)M_PI` (main.c:17, 24), `0x40490FDB`. -/
def M_PI : F32 := lit 314159265358979323846 (10 ^ 20)

/-- Speed of sound, `343.0f` (main.c:21). -/
def SPEED_OF_SOUND : F32 := lit 343 1

/-- Degrees to radians (main.c:24): `d * (float)M_PI / 180.0f`. -/
def deg2rad (d : F32) : F32 := F32.div (F32.mul d M_PI) (lit 180 1)

/-- The value of the local `denom` at the division of main.c:95 (main.c:93-94). -/
def sourceDenom (vr : F32) : F32 :=
  let denom := F32.sub SPEED_OF_SOUND vr
  if F32.lt (F32.abs denom) (lit 1 1000) then
    (if F32.le (lit 0 1) denom then lit 1 1000 else F32.neg (lit 1 1000))
  else denom

/-- The function `ComputeDoppler` (main.c:74-100) in binary32.  `radialSpeed`
tells whether the `radialSpeed` out-pointer is non-null. -/
def ComputeDoppler (cosf : F32 → F32) (st : DopplerState F32) (radialSpeed : Bool) :
    DopplerOut F32 :=
  let vr := F32.mul st.speed (cosf (deg2rad st.angleDeg))
  let f0 := st.baseFreq
  let c := SPEED_OF_SOUND
  { radialSpeed := if radialSpeed then some vr else none
    fObserved :=
      if st.movingSource then
        let denom := sourceDenom vr
        F32.div (F32.mul f0 c) denom
      else
        F32.div (F32.mul f0 (F32.add c vr)) c }

/-- The constant `1e-3f` in units of `2 ^ (-149)`: 0.001000000047497451. -/
def milli : ℤ := 713623880248293833044497743771827605340160

/-- The clamp of main.c:94 on a finite difference `q` (in units of
`2 ^ (-149)`). -/
def clampInt (q : ℤ) : ℤ :=
  if |q| < milli then (if 0 ≤ q then milli else -milli) else q

/-- A finite value within the range of binary32 (at most `FLT_MAX` in
magnitude). -/
def InRange (x : F32) : Prop :=
  ∃ k : ℤ, x = F32.fin k ∧ k.natAbs ≤ (2 ^ 24 - 1) * 2 ^ 253

end Binary32

/-! ## The exact reading: unfolding lemmas -/

/-- Whatever the state before them, the three clamps leave `speed ≥ 0`,
`baseFreq ≥ 1` and `distance ≥ 0.5`. -/
theorem clampControls_bounds (st : DopplerState α) :
    0 ≤ (clampControls st).speed ∧ 1 ≤ (clampControls st).baseFreq ∧
      0.5 ≤ (clampControls st).distance := by
  have hs : (clampControls st).speed = if st.speed < 0.0 then 0.0 else st.speed := by
    unfold clampControls
    simp only
    split_ifs <;> rfl
  have hb : (clampControls st).baseFreq =
      if st.baseFreq < 1.0 then 1.0 else st.baseFreq := by
    unfold clampControls
    simp only
    split_ifs <;> rfl
  have hd : (clampControls st).distance =
      if st.distance < 0.5 then 0.5 else st.distance := by
    unfold clampControls
    simp only
    split_ifs <;> rfl
  rw [hs, hb, hd]
  refine ⟨?_, ?_, ?_⟩
  · split_ifs with h
    · norm_num
    · norm_num at h; exact h
  · split_ifs with h
    · norm_num
    · norm_num at h; exact h
  · split_ifs with h
    · exact le_refl _
    · exact not_lt.mp h

/-- Every state `ComputeDoppler` is called with from the loop is the result of
a control update. -/
theorem loopCalls_mem (cosf : α → α) (inputs : List (FrameInput α))
    (st0 st : DopplerState α) (h : st ∈ loopCalls cosf inputs st0) :
    ∃ inp prev, st = updateControls inp prev := by
  induction inputs generalizing st0 with
  | nil => simp [loopCalls] at h
  | cons inp rest ih =>
    simp only [loopCalls, frame, List.mem_cons] at h
    rcases h with h | h
    · exact ⟨inp, st0, h⟩
    · exact ih _ h

/-- The state after any number of frames is the start state or the result of
a control update. -/
theorem runFrames_cases (cosf : α → α) (inputs : List (FrameInput α)) :
    runFrames cosf inputs = initialState ∨
      ∃ inp prev, runFrames cosf inputs = updateControls inp prev := by
  induction inputs using List.reverseRecOn with
  | nil => left; rfl
  | append_singleton rest inp _ =>
    right
    exact ⟨inp, runFrames cosf rest, by simp [runFrames, frame, List.foldl_append]⟩

/-! ## The exact reading: the expression `ComputeDoppler` evaluates -/

/-- C9. The start state of `main` has `speed ≥ 0`, `baseFreq ≥ 1` and
`distance ≥ 0.5`; from every prior state, for every combination of keys and
every frame time, the state after one control update (key adjustments, then
the three clamps) has them again; so has the state after any number of
frames, and every state `ComputeDoppler` is called with from the loop has
`baseFreq > 0` and `speed ≥ 0`. -/
theorem C9_input_loop_invariant :
    ((0 : ℝ) ≤ (initialState : DopplerState ℝ).speed ∧
      1 ≤ (initialState : DopplerState ℝ).baseFreq ∧
      0.5 ≤ (initialState : DopplerState ℝ).distance) ∧
    (∀ (inp : FrameInput ℝ) (st : DopplerState ℝ),
      0 ≤ (updateControls inp st).speed ∧ 1 ≤ (updateControls inp st).baseFreq ∧
        0.5 ≤ (updateControls inp st).distance) ∧
    (∀ inputs : List (FrameInput ℝ),
      0 ≤ (runFrames Real.cos inputs).speed ∧ 1 ≤ (runFrames Real.cos inputs).baseFreq ∧
        0.5 ≤ (runFrames Real.cos inputs).distance) ∧
    (∀ (inputs : List (FrameInput ℝ)) (st : DopplerState ℝ),
      st ∈ loopCalls Real.cos inputs initialState → 0 < st.baseFreq ∧ 0 ≤ st.speed) := by
  have h0 : ((0 : ℝ) ≤ (initialState : DopplerState ℝ).speed ∧
      1 ≤ (initialState : DopplerState ℝ).baseFreq ∧
      0.5 ≤ (initialState : DopplerState ℝ).distance) := by
    norm_num [initialState]
  refine ⟨h0, fun inp st => clampControls_bounds _, fun inputs => ?_, fun inputs st h => ?_⟩
  · rcases runFrames_cases Real.cos inputs with h | ⟨inp, prev, h⟩
    · rw [h]; exact h0
    · rw [h]; exact clampControls_bounds _
  · obtain ⟨inp, prev, rfl⟩ := loopCalls_mem Real.cos inputs _ st h
    have hb := clampControls_bounds (adjustControls inp prev)
    exact ⟨lt_of_lt_of_le one_pos hb.2.1, hb.1⟩

namespace Binary32

/-! ## The binary32 reading: rounding

### Round half even -/

theorem roundHalfEven_spec (a d : ℕ) (hd : 0 < d) :
    ((roundHalfEven a d : ℚ) - 1 / 2 ≤ (a : ℚ) / d ∧ (a : ℚ) / d ≤ roundHalfEven a d + 1 / 2) ∧
    ((a : ℚ) / d = roundHalfEven a d + 1 / 2 → roundHalfEven a d % 2 = 0) ∧
    ((a : ℚ) / d = roundHalfEven a d - 1 / 2 → roundHalfEven a d % 2 = 0) := by
  have hdq : (0 : ℚ) < d := by exact_mod_cast hd
  have hdiv : (a : ℚ) / d = (a / d : ℕ) + ((a % d : ℕ) : ℚ) / d := by
    have h := Nat.div_add_mod a d
    have h2 : (a : ℚ) = d * (a / d : ℕ) + (a % d : ℕ) := by exact_mod_cast h.symm
    field_simp
    linarith
  have hr : ((a % d : ℕ) : ℚ) / d < 1 := by
    rw [div_lt_one hdq]; exact_mod_cast Nat.mod_lt a hd
  have hr0 : (0 : ℚ) ≤ ((a % d : ℕ) : ℚ) / d := by positivity
  unfold roundHalfEven
  simp only
  split_ifs with h1 h2 h3
  · have h1q : ((a % d : ℕ) : ℚ) / d < 1 / 2 := by
      rw [div_lt_iff₀ hdq]
      have : (2 : ℚ) * (a % d : ℕ) < d := by exact_mod_cast h1
      linarith
    refine ⟨⟨by linarith, by linarith⟩, fun h => ?_, fun h => ?_⟩ <;> (exfalso; linarith)
  · have h2q : 1 / 2 < ((a % d : ℕ) : ℚ) / d := by
      rw [lt_div_iff₀ hdq]
      have : (d : ℚ) < 2 * (a % d : ℕ) := by exact_mod_cast h2
      linarith
    push_cast
    refine ⟨⟨by linarith, by linarith⟩, fun h => ?_, fun h => ?_⟩ <;> (exfalso; linarith)
  · have h3q : ((a % d : ℕ) : ℚ) / d = 1 / 2 := by
      rw [div_eq_iff (ne_of_gt hdq)]
      have : 2 * (a % d) = d := by omega
      have : (2 : ℚ) * (a % d : ℕ) = d := by exact_mod_cast this
      linarith
    refine ⟨⟨by linarith, by linarith⟩, fun _ => h3, fun h => ?_⟩
    exfalso; linarith
  · have h3q : ((a % d : ℕ) : ℚ) / d = 1 / 2 := by
      rw [div_eq_iff (ne_of_gt hdq)]
      have : 2 * (a % d) = d := by omega
      have : (2 : ℚ) * (a % d : ℕ) = d := by exact_mod_cast this
      linarith
    push_cast
    refine ⟨⟨by linarith, by linarith⟩, fun h => ?_, fun _ => by omega⟩
    exfalso; linarith

/-- Monotone in the rational argument -/
theorem roundHalfEven_mono (a1 d1 a2 d2 : ℕ) (h1 : 0 < d1) (h2 : 0 < d2)
    (h : (a1 : ℚ) / d1 ≤ (a2 : ℚ) / d2) :
    roundHalfEven a1 d1 ≤ roundHalfEven a2 d2 := by
  obtain ⟨⟨l1, u1⟩, _, t1⟩ := roundHalfEven_spec a1 d1 h1
  obtain ⟨⟨l2, u2⟩, t2, _⟩ := roundHalfEven_spec a2 d2 h2
  by_contra hlt
  push_neg at hlt
  have hq : (roundHalfEven a2 d2 : ℚ) + 1 ≤ roundHalfEven a1 d1 := by exact_mod_cast hlt
  have e1 : (a1 : ℚ) / d1 = roundHalfEven a1 d1 - 1 / 2 := by linarith
  have e2 : (a2 : ℚ) / d2 = roundHalfEven a2 d2 + 1 / 2 := by linarith
  have p1 := t1 e1
  have p2 := t2 e2
  have : (roundHalfEven a1 d1 : ℚ) = roundHalfEven a2 d2 + 1 := by linarith
  have : roundHalfEven a1 d1 = roundHalfEven a2 d2 + 1 := by exact_mod_cast this
  omega

/-- An integer is its own rounding -/
theorem roundHalfEven_exact (k d : ℕ) (hd : 0 < d) : roundHalfEven (k * d) d = k := by
  unfold roundHalfEven
  simp [Nat.mul_div_cancel _ hd, hd]

/-! ### The binade shift -/

theorem expShift_le (fuel q : ℕ) : expShift fuel q ≤ fuel := by
  induction fuel generalizing q with
  | zero => simp [expShift]
  | succ f ih =>
    unfold expShift
    split_ifs
    · omega
    · have := ih (q / 2); omega

theorem expShift_lower (fuel q : ℕ) (h : 0 < expShift fuel q) :
    2 ^ (23 + expShift fuel q) ≤ q := by
  induction fuel generalizing q with
  | zero => simp [expShift] at h
  | succ f ih =>
    unfold expShift at h ⊢
    split_ifs at h ⊢ with h1
    · omega
    · rcases Nat.eq_zero_or_pos (expShift f (q / 2)) with h0 | h0
      · rw [h0]; simpa using h1
      · have h3 := ih (q / 2) h0
        have h4 : 2 ^ (23 + expShift f (q / 2)) * 2 ≤ q := by
          have := (Nat.le_div_iff_mul_le (by norm_num : 0 < 2)).mp h3
          exact this
        calc 2 ^ (23 + (expShift f (q / 2) + 1)) = 2 ^ (23 + expShift f (q / 2)) * 2 := by ring
          _ ≤ q := h4

theorem expShift_mono (fuel q1 q2 : ℕ) (h : q1 ≤ q2) :
    expShift fuel q1 ≤ expShift fuel q2 := by
  induction fuel generalizing q1 q2 with
  | zero => simp [expShift]
  | succ f ih =>
    unfold expShift
    split_ifs with h1 h2 h2
    · exact le_refl _
    · omega
    · omega
    · have := ih (q1 / 2) (q2 / 2) (Nat.div_le_div_right h)
      omega

theorem expShift_upper_of_lt (fuel q : ℕ) (h : expShift fuel q < fuel) :
    q < 2 ^ (24 + expShift fuel q) := by
  induction fuel generalizing q with
  | zero => simp at h
  | succ f ih =>
    unfold expShift at h ⊢
    split_ifs at h ⊢ with h1
    · simpa using h1
    · have h3 := ih (q / 2) (by omega)
      rw [Nat.div_lt_iff_lt_mul (by norm_num)] at h3
      calc q < 2 ^ (24 + expShift f (q / 2)) * 2 := h3
        _ = 2 ^ (24 + (expShift f (q / 2) + 1)) := by ring

/-! ### Rounding a non-negative quotient -/

/-- Floor and fractional part of a quotient of naturals -/
theorem natDiv_bounds (a d : ℕ) (hd : 0 < d) :
    ((a / d : ℕ) : ℚ) ≤ (a : ℚ) / d ∧ (a : ℚ) / d < (a / d : ℕ) + 1 := by
  have hdq : (0 : ℚ) < d := by exact_mod_cast hd
  constructor
  · exact Nat.cast_div_le
  · rw [div_lt_iff₀ hdq]
    have h := Nat.lt_succ_iff.mpr (le_refl (a / d))
    have h2 : a < (a / d + 1) * d := by
      have := Nat.div_add_mod a d
      have := Nat.mod_lt a hd
      nlinarith
    exact_mod_cast h2

theorem quot_shift (a d s : ℕ) :
    (a : ℚ) / ((d * 2 ^ s : ℕ) : ℚ) = (a : ℚ) / d / 2 ^ s := by
  push_cast
  rw [div_div]

theorem roundMag_upper (a d : ℕ) (hd : 0 < d) (h : expShift 254 (a / d) < 254) :
    roundMag a d ≤ 2 ^ (24 + expShift 254 (a / d)) := by
  have hq := expShift_upper_of_lt 254 (a / d) h
  obtain ⟨_, hx⟩ := natDiv_bounds a d hd
  have hd2 : 0 < d * 2 ^ expShift 254 (a / d) := by positivity
  obtain ⟨⟨l, _⟩, _, _⟩ := roundHalfEven_spec a _ hd2
  rw [quot_shift] at l
  have hp : (0 : ℚ) < 2 ^ expShift 254 (a / d) := by positivity
  have hq2 : ((a / d : ℕ) : ℚ) + 1 ≤ 2 ^ (24 + expShift 254 (a / d)) := by
    exact_mod_cast hq
  have hy : (a : ℚ) / d / 2 ^ expShift 254 (a / d) < 2 ^ 24 := by
    rw [div_lt_iff₀ hp, ← pow_add]
    linarith
  have hm : (roundHalfEven a (d * 2 ^ expShift 254 (a / d)) : ℚ) < 2 ^ 24 + 1 := by
    linarith
  have hm2 : roundHalfEven a (d * 2 ^ expShift 254 (a / d)) < 2 ^ 24 + 1 := by
    exact_mod_cast hm
  unfold roundMag
  simp only
  rw [pow_add]
  exact Nat.mul_le_mul_right _ (by omega)

theorem roundMag_lower (a d : ℕ) (hd : 0 < d) (h : 0 < expShift 254 (a / d)) :
    2 ^ (23 + expShift 254 (a / d)) ≤ roundMag a d := by
  have hq := expShift_lower 254 (a / d) h
  obtain ⟨hx, _⟩ := natDiv_bounds a d hd
  have hd2 : 0 < d * 2 ^ expShift 254 (a / d) := by positivity
  obtain ⟨⟨_, u⟩, _, _⟩ := roundHalfEven_spec a _ hd2
  rw [quot_shift] at u
  have hp : (0 : ℚ) < 2 ^ expShift 254 (a / d) := by positivity
  have hq2 : (2 : ℚ) ^ (23 + expShift 254 (a / d)) ≤ ((a / d : ℕ) : ℚ) := by
    exact_mod_cast hq
  have hy : (2 : ℚ) ^ 23 ≤ (a : ℚ) / d / 2 ^ expShift 254 (a / d) := by
    rw [le_div_iff₀ hp, ← pow_add]
    linarith
  have hm : (2 : ℚ) ^ 23 - 1 < (roundHalfEven a (d * 2 ^ expShift 254 (a / d)) : ℚ) := by
    linarith
  have hm2 : 2 ^ 23 - 1 < roundHalfEven a (d * 2 ^ expShift 254 (a / d)) := by
    have : ((2 ^ 23 - 1 : ℕ) : ℚ) < (roundHalfEven a (d * 2 ^ expShift 254 (a / d)) : ℚ) := by
      push_cast
      linarith
    exact_mod_cast this
  unfold roundMag
  simp only
  rw [pow_add]
  exact Nat.mul_le_mul_right _ (by omega)

/-- Rounding is monotone -/
theorem roundMag_mono (a1 d1 a2 d2 : ℕ) (h1 : 0 < d1) (h2 : 0 < d2)
    (h : (a1 : ℚ) / d1 ≤ (a2 : ℚ) / d2) : roundMag a1 d1 ≤ roundMag a2 d2 := by
  have hq : a1 / d1 ≤ a2 / d2 := by
    rw [← Nat.floor_div_eq_div (α := ℚ) a1 d1, ← Nat.floor_div_eq_div (α := ℚ) a2 d2]
    exact Nat.floor_mono h
  have hs := expShift_mono 254 _ _ hq
  rcases Nat.eq_or_lt_of_le hs with he | hlt
  · unfold roundMag
    simp only
    rw [← he]
    apply Nat.mul_le_mul_right
    apply roundHalfEven_mono _ _ _ _ (by positivity) (by positivity)
    rw [quot_shift, quot_shift]
    exact div_le_div_of_nonneg_right h (by positivity)
  · have hu := roundMag_upper a1 d1 h1 (lt_of_lt_of_le hlt (expShift_le _ _))
    have hl := roundMag_lower a2 d2 h2 (by omega)
    calc roundMag a1 d1 ≤ 2 ^ (24 + expShift 254 (a1 / d1)) := hu
      _ ≤ 2 ^ (23 + expShift 254 (a2 / d2)) := Nat.pow_le_pow_right (by norm_num) (by omega)
      _ ≤ roundMag a2 d2 := hl

/-- A multiple of the spacing of its own binade is its own rounding -/
theorem roundMag_exact (k d : ℕ) (hd : 0 < d) (hk : 2 ^ expShift 254 k ∣ k) :
    roundMag (k * d) d = k := by
  unfold roundMag
  simp only
  rw [Nat.mul_div_cancel _ hd]
  obtain ⟨j, hj⟩ := hk
  have e : k * d = j * (d * 2 ^ expShift 254 k) := by
    conv_lhs => rw [hj]
    ring
  rw [e, roundHalfEven_exact _ _ (by positivity)]
  conv_rhs => rw [hj]
  ring

/-- The rounding error is at most half the spacing -/
theorem roundMag_error (a d : ℕ) (hd : 0 < d) :
    |(roundMag a d : ℚ) - (a : ℚ) / d| ≤ 2 ^ expShift 254 (a / d) / 2 := by
  have hd2 : 0 < d * 2 ^ expShift 254 (a / d) := by positivity
  obtain ⟨⟨l, u⟩, _, _⟩ := roundHalfEven_spec a _ hd2
  rw [quot_shift] at l u
  have hp : (0 : ℚ) < 2 ^ expShift 254 (a / d) := by positivity
  rw [le_div_iff₀ hp] at l
  rw [div_le_iff₀ hp] at u
  unfold roundMag
  simp only
  push_cast
  rw [abs_le]
  constructor <;> nlinarith

/-! ### Signed rounding -/

theorem roundInt_nonneg (n : ℤ) (d : ℕ) (h : 0 ≤ n) : roundInt n d = roundMag n.natAbs d := by
  unfold roundInt
  rw [if_neg (not_lt.mpr h)]

theorem roundInt_neg (n : ℤ) (d : ℕ) (h : n < 0) : roundInt n d = -(roundMag n.natAbs d : ℤ) := by
  unfold roundInt
  rw [if_pos h]

theorem natAbs_roundInt (n : ℤ) (d : ℕ) : (roundInt n d).natAbs = roundMag n.natAbs d := by
  unfold roundInt
  split_ifs <;> simp

theorem roundMag_zero (d : ℕ) : roundMag 0 d = 0 := by
  simp [roundMag, roundHalfEven]

theorem roundInt_zero (d : ℕ) : roundInt 0 d = 0 := by
  simp [roundInt, roundMag_zero]

theorem roundInt_mono (n1 n2 : ℤ) (d1 d2 : ℕ) (h1 : 0 < d1) (h2 : 0 < d2)
    (h : (n1 : ℚ) / d1 ≤ (n2 : ℚ) / d2) : roundInt n1 d1 ≤ roundInt n2 d2 := by
  have hd1 : (0 : ℚ) < d1 := by exact_mod_cast h1
  have hd2 : (0 : ℚ) < d2 := by exact_mod_cast h2
  rcases lt_or_le n1 0 with a | a <;> rcases lt_or_le n2 0 with b | b
  · rw [roundInt_neg _ _ a, roundInt_neg _ _ b, neg_le_neg_iff]
    have : roundMag n2.natAbs d2 ≤ roundMag n1.natAbs d1 := by
      apply roundMag_mono _ _ _ _ h2 h1
      rw [Nat.cast_natAbs, Nat.cast_natAbs, abs_of_neg a, abs_of_neg b]
      push_cast
      rw [neg_div, neg_div, neg_le_neg_iff]
      exact h
    exact_mod_cast this
  · rw [roundInt_neg _ _ a, roundInt_nonneg _ _ b]
    have := Int.natCast_nonneg (roundMag n1.natAbs d1)
    have := Int.natCast_nonneg (roundMag n2.natAbs d2)
    omega
  · exfalso
    have p1 : (0 : ℚ) ≤ (n1 : ℚ) / d1 := div_nonneg (by exact_mod_cast a) hd1.le
    have p2 : (n2 : ℚ) / d2 < 0 := div_neg_of_neg_of_pos (by exact_mod_cast b) hd2
    linarith
  · rw [roundInt_nonneg _ _ a, roundInt_nonneg _ _ b]
    have : roundMag n1.natAbs d1 ≤ roundMag n2.natAbs d2 := by
      apply roundMag_mono _ _ _ _ h1 h2
      rw [Nat.cast_natAbs, Nat.cast_natAbs, abs_of_nonneg a, abs_of_nonneg b]
      exact h
    exact_mod_cast this

theorem roundInt_exact (k : ℤ) (d : ℕ) (hd : 0 < d) (hk : Representable k) :
    roundInt (k * d) d = k := by
  have hd' : (0 : ℤ) < d := by exact_mod_cast hd
  have e : (k * d).natAbs = k.natAbs * d := by
    rw [Int.natAbs_mul, Int.natAbs_ofNat]
  rcases lt_or_le k 0 with a | a
  · rw [roundInt_neg _ _ (mul_neg_of_neg_of_pos a hd'), e, roundMag_exact _ _ hd hk.2]
    omega
  · rw [roundInt_nonneg _ _ (mul_nonneg a hd'.le), e, roundMag_exact _ _ hd hk.2]
    omega

/-! ### The overflow test and the order -/

theorem ofInt_of_lt (k : ℤ) (h : k.natAbs < 2 ^ 128 * 2 ^ 149) : ofInt k = F32.fin k := by
  unfold ofInt
  rw [if_neg (not_le.mpr h)]

theorem ofInt_cases (k : ℤ) :
    (ofInt k = F32.fin k ∧ k.natAbs < 2 ^ 128 * 2 ^ 149) ∨
    (ofInt k = F32.inf false ∧ 0 < k ∧ 2 ^ 128 * 2 ^ 149 ≤ k.natAbs) ∨
    (ofInt k = F32.inf true ∧ k < 0 ∧ 2 ^ 128 * 2 ^ 149 ≤ k.natAbs) := by
  unfold ofInt
  split_ifs with h
  · rcases lt_or_le k 0 with a | a
    · right; right; exact ⟨by simp [a], a, h⟩
    · right; left
      have hpos : 0 < k := by
        rcases eq_or_lt_of_le a with e | e
        · rw [← e] at h; simp at h
        · exact e
      exact ⟨by simp [not_lt.mpr a], hpos, h⟩
  · left; exact ⟨rfl, not_le.mp h⟩

theorem ofInt_le_ofInt (k1 k2 : ℤ) (h : k1 ≤ k2) : F32.le (ofInt k1) (ofInt k2) = true := by
  rcases ofInt_cases k1 with ⟨e1, b1⟩ | ⟨e1, p1, b1⟩ | ⟨e1, p1, b1⟩ <;>
    rcases ofInt_cases k2 with ⟨e2, b2⟩ | ⟨e2, p2, b2⟩ | ⟨e2, p2, b2⟩ <;>
    rw [e1, e2] <;> simp only [F32.le, decide_eq_true_eq, Bool.not_false, Bool.not_true,
      Bool.or_true, Bool.true_or, Bool.or_false, Bool.false_or] <;>
    first
      | exact h
      | rfl
      | (exfalso; omega)

theorem round_zero (d : ℕ) : round 0 d = F32.fin 0 := by
  unfold round
  rw [roundInt_zero]
  rfl

theorem round_exact (k : ℤ) (d : ℕ) (hd : 0 < d) (hk : Representable k) :
    round (k * d) d = F32.fin k := by
  unfold round
  rw [roundInt_exact k d hd hk, ofInt_of_lt k hk.1]

theorem abs_ofInt (k : ℤ) : F32.abs (ofInt k) = ofInt (k.natAbs : ℤ) := by
  unfold ofInt
  rw [Int.natAbs_ofNat]
  split_ifs with h
  · simp [F32.abs]
  · rfl

theorem abs_round (n : ℤ) (d : ℕ) : F32.abs (round n d) = ofInt (roundMag n.natAbs d : ℤ) := by
  unfold round
  rw [abs_ofInt, natAbs_roundInt]

/-! ## The binary32 reading: the program

### The constants -/

set_option maxRecDepth 100000 in
theorem speedOfSound32_eq : SPEED_OF_SOUND = F32.fin (343 * 2 ^ 149) := by decide

set_option maxRecDepth 100000 in
theorem lit_milli_eq : lit 1 1000 = F32.fin milli := by
  decide

theorem milli_pos : 0 < milli := by
  unfold milli; norm_num

set_option maxRecDepth 100000 in
theorem lit_zero_eq : lit 0 1 = F32.fin 0 := by decide

set_option maxRecDepth 100000 in
theorem lit_one_eq : lit 1 1 = F32.fin (2 ^ 149) := by decide

set_option maxRecDepth 100000 in
theorem deg2rad32_zero : deg2rad (F32.fin 0) = F32.fin 0 := by decide

/-! ### Unfolding `ComputeDoppler` -/

theorem fObserved32_source (cosf : F32 → F32) (st : DopplerState F32) (p : Bool)
    (h : st.movingSource = true) :
    (ComputeDoppler cosf st p).fObserved =
      F32.div (F32.mul st.baseFreq SPEED_OF_SOUND)
        (sourceDenom (F32.mul st.speed (cosf (deg2rad st.angleDeg)))) := by
  simp only [ComputeDoppler, h, if_true]

theorem fObserved32_receiver (cosf : F32 → F32) (st : DopplerState F32) (p : Bool)
    (h : st.movingSource = false) :
    (ComputeDoppler cosf st p).fObserved =
      F32.div (F32.mul st.baseFreq
        (F32.add SPEED_OF_SOUND (F32.mul st.speed (cosf (deg2rad st.angleDeg)))))
        SPEED_OF_SOUND := by
  simp [ComputeDoppler, h]

theorem radialSpeed32_eq (cosf : F32 → F32) (st : DopplerState F32) :
    (ComputeDoppler cosf st true).radialSpeed =
      some (F32.mul st.speed (cosf (deg2rad st.angleDeg))) := by
  simp only [ComputeDoppler, if_true]

/-! ### Multiplying and dividing by the speed of sound -/

set_option maxRecDepth 100000 in
theorem sourceDenom_zero : sourceDenom (F32.fin 0) = SPEED_OF_SOUND := by decide

set_option maxRecDepth 100000 in
theorem add_speedOfSound_zero : F32.add SPEED_OF_SOUND (F32.fin 0) = SPEED_OF_SOUND := by decide

theorem mul_zero_fin (c : ℤ) : F32.mul (F32.fin 0) (F32.fin c) = F32.fin 0 := by
  simp only [F32.mul, zero_mul, round_zero]

/-- Multiplying by 343 and dividing by 343 again returns the number when the
product needs no rounding -/
theorem mul_div_speedOfSound (k : ℤ) (hk : Representable k) (hp : Representable (343 * k)) :
    F32.div (F32.mul (F32.fin k) SPEED_OF_SOUND) SPEED_OF_SOUND = F32.fin k := by
  rw [speedOfSound32_eq]
  have e1 : F32.mul (F32.fin k) (F32.fin (343 * 2 ^ 149)) = F32.fin (343 * k) := by
    simp only [F32.mul]
    have : k * (343 * 2 ^ 149) = (343 * k) * ((2 ^ 149 : ℕ) : ℤ) := by push_cast; ring
    rw [this, round_exact _ _ (by positivity) hp]
  rw [e1]
  simp only [F32.div]
  rw [if_neg (by norm_num), if_neg (by norm_num)]
  have : (343 * k) * 2 ^ 149 = k * (((343 * 2 ^ 149 : ℤ).natAbs : ℕ) : ℤ) := by
    rw [Int.natCast_natAbs, abs_of_pos (by positivity)]
    ring
  rw [this, round_exact _ _ (by simp) hk]

/-! ### The divisor of the moving-source branch -/

theorem roundInt_one_mono (n1 n2 : ℤ) (h : n1 ≤ n2) : roundInt n1 1 ≤ roundInt n2 1 := by
  apply roundInt_mono _ _ _ _ Nat.one_pos Nat.one_pos
  simp only [Nat.cast_one, div_one]
  exact_mod_cast h

set_option maxRecDepth 100000 in
theorem roundInt_top : roundInt (343 * 2 ^ 149 + (2 ^ 24 - 1) * 2 ^ 253) 1 = (2 ^ 24 - 1) * 2 ^ 253 := by
  decide

set_option maxRecDepth 100000 in
theorem roundInt_bot : roundInt (343 * 2 ^ 149 - (2 ^ 24 - 1) * 2 ^ 253) 1 = -((2 ^ 24 - 1) * 2 ^ 253) := by
  decide

theorem sub_speedOfSound_fin (kv : ℤ) :
    F32.sub SPEED_OF_SOUND (F32.fin kv) = ofInt (roundInt (343 * 2 ^ 149 - kv) 1) := by
  rw [speedOfSound32_eq]
  simp only [F32.sub, F32.neg, F32.add, round]
  rfl

theorem clampInt_abs (q : ℤ) : milli ≤ |clampInt q| := by
  have hp := milli_pos
  unfold clampInt
  split_ifs with h1 h2
  · rw [abs_of_pos hp]
  · rw [abs_neg, abs_of_pos hp]
  · exact not_lt.mp h1

theorem sourceDenom_of_sub_fin (vr : F32) (q : ℤ) (h : F32.sub SPEED_OF_SOUND vr = F32.fin q) :
    sourceDenom vr = F32.fin (clampInt q) := by
  unfold sourceDenom clampInt
  rw [h, lit_milli_eq, lit_zero_eq]
  simp only [F32.abs, F32.lt, F32.le, F32.neg, decide_eq_true_eq, Int.natCast_natAbs]
  split_ifs <;> rfl

theorem sourceDenom_of_sub_inf (vr : F32) (s : Bool) (h : F32.sub SPEED_OF_SOUND vr = F32.inf s) :
    sourceDenom vr = F32.inf s := by
  unfold sourceDenom
  rw [h, lit_milli_eq]
  simp only [F32.abs, F32.lt]
  rfl

theorem sub_speedOfSound_cases (vr : F32) (h : vr ≠ F32.nan) :
    (∃ q : ℤ, F32.sub SPEED_OF_SOUND vr = F32.fin q) ∨
    (∃ s : Bool, F32.sub SPEED_OF_SOUND vr = F32.inf s) := by
  cases vr with
  | fin kv =>
    rw [sub_speedOfSound_fin]
    rcases ofInt_cases (roundInt (343 * 2 ^ 149 - kv) 1) with ⟨e, _⟩ | ⟨e, _⟩ | ⟨e, _⟩
    · exact Or.inl ⟨_, e⟩
    · exact Or.inr ⟨_, e⟩
    · exact Or.inr ⟨_, e⟩
  | inf s =>
    right
    rw [speedOfSound32_eq]
    exact ⟨!s, rfl⟩
  | nan => exact absurd rfl h

theorem sourceDenom_inRange (vr : F32) (h : InRange vr) :
    ∃ q : ℤ, sourceDenom vr = F32.fin (clampInt q) ∧
      F32.sub SPEED_OF_SOUND vr = F32.fin q := by
  obtain ⟨kv, rfl, hk⟩ := h
  have hu : roundInt (343 * 2 ^ 149 - kv) 1 ≤ (2 ^ 24 - 1) * 2 ^ 253 := by
    rw [← roundInt_top]
    apply roundInt_one_mono
    omega
  have hl : -((2 ^ 24 - 1) * 2 ^ 253) ≤ roundInt (343 * 2 ^ 149 - kv) 1 := by
    rw [← roundInt_bot]
    apply roundInt_one_mono
    omega
  have e : F32.sub SPEED_OF_SOUND (F32.fin kv) = F32.fin (roundInt (343 * 2 ^ 149 - kv) 1) := by
    rw [sub_speedOfSound_fin, ofInt_of_lt]
    omega
  exact ⟨_, sourceDenom_of_sub_fin _ _ e, e⟩

/-! ### Bounds through the clamped divisor -/

theorem sourceDenom_spec (vr : F32) (h : vr ≠ F32.nan) :
    sourceDenom vr ≠ F32.nan ∧ sourceDenom vr ≠ F32.fin 0 ∧
      F32.le (lit 1 1000) (F32.abs (sourceDenom vr)) = true := by
  rcases sub_speedOfSound_cases vr h with ⟨q, e⟩ | ⟨s, e⟩
  · have hq := clampInt_abs q
    have hp := milli_pos
    rw [sourceDenom_of_sub_fin vr q e, lit_milli_eq]
    refine ⟨by simp, ?_, ?_⟩
    · intro h0
      have : clampInt q = 0 := by injection h0
      rw [this] at hq
      simp at hq
      omega
    · simp only [F32.abs, F32.le, decide_eq_true_eq, Int.natCast_natAbs]
      exact hq
  · rw [sourceDenom_of_sub_inf vr s e, lit_milli_eq]
    refine ⟨by simp, by simp, ?_⟩
    simp [F32.abs, F32.le]

/-- The product with the speed of sound of a non-negative frequency -/
theorem mul_speedOfSound_cases (f : F32) (h : F32.le (F32.fin 0) f = true) :
    (∃ a : ℤ, 0 ≤ a ∧ F32.mul f SPEED_OF_SOUND = F32.fin a) ∨
      F32.mul f SPEED_OF_SOUND = F32.inf false := by
  rw [speedOfSound32_eq]
  cases f with
  | fin kf =>
    simp only [F32.le, decide_eq_true_eq] at h
    simp only [F32.mul, round]
    have h0 : 0 ≤ roundInt (kf * (343 * 2 ^ 149)) (2 ^ 149) := by
      rw [← roundInt_zero (2 ^ 149)]
      apply roundInt_mono _ _ _ _ (by positivity) (by positivity)
      apply div_le_div_of_nonneg_right _ (by positivity)
      have : (0 : ℤ) ≤ kf * (343 * 2 ^ 149) := by positivity
      exact_mod_cast this
    rcases ofInt_cases (roundInt (kf * (343 * 2 ^ 149)) (2 ^ 149)) with
      ⟨e, _⟩ | ⟨e, _⟩ | ⟨e, hn, _⟩
    · exact Or.inl ⟨_, h0, e⟩
    · exact Or.inr e
    · exfalso; omega
  | inf s =>
    cases s
    · right; simp [F32.mul]
    · simp [F32.le] at h
  | nan => simp [F32.le] at h

/-- Dividing a non-negative number: the quotient is largest in magnitude at
the smallest divisor -/
theorem abs_div_le_div_milli (x : F32) (kd : ℤ) (hx : (∃ a : ℤ, 0 ≤ a ∧ x = F32.fin a) ∨ x = F32.inf false)
    (hd : milli ≤ |kd|) :
    F32.le (F32.abs (F32.div x (F32.fin kd))) (F32.div x (lit 1 1000)) = true := by
  have hp := milli_pos
  have hkd : kd ≠ 0 := by
    intro h0; rw [h0] at hd; simp at hd; omega
  have h1 : (milli.natAbs : ℤ) = milli := Int.natAbs_of_nonneg hp.le
  have h2 : (kd.natAbs : ℤ) = |kd| := Int.natCast_natAbs kd
  have hdn : milli.natAbs ≤ kd.natAbs := by omega
  have hmn : 0 < milli.natAbs := by omega
  rw [lit_milli_eq]
  rcases hx with ⟨a, ha, rfl⟩ | rfl
  · simp only [F32.div]
    rw [if_neg hkd, if_neg (ne_of_gt hp), if_neg (not_lt.mpr hp.le), abs_round]
    have hn : (if kd < 0 then -(a * 2 ^ 149) else a * 2 ^ 149).natAbs = (a * 2 ^ 149).natAbs := by
      split_ifs <;> simp
    rw [hn]
    have hr : round (a * 2 ^ 149) milli.natAbs = ofInt (roundMag (a * 2 ^ 149).natAbs milli.natAbs) := by
      unfold round
      rw [roundInt_nonneg _ _ (by positivity)]
    rw [hr]
    apply ofInt_le_ofInt
    have : roundMag (a * 2 ^ 149).natAbs kd.natAbs ≤ roundMag (a * 2 ^ 149).natAbs milli.natAbs := by
      apply roundMag_mono _ _ _ _ (by omega) hmn
      apply div_le_div_of_nonneg_left (by positivity)
      · exact_mod_cast hmn
      · exact_mod_cast hdn
    exact_mod_cast this
  · simp [F32.div, F32.abs, F32.le, not_lt.mpr hp.le]

/-! ### Monotonicity in the speed -/

/-- In the normal range the rounding error is at most `2 ^ (-24)` of the number -/
theorem roundMag_rel (a d : ℕ) (hd : 0 < d) (h : (2 : ℚ) ^ 23 ≤ (a : ℚ) / d) :
    |(roundMag a d : ℚ) - (a : ℚ) / d| ≤ (a : ℚ) / d / 2 ^ 24 := by
  have he := roundMag_error a d hd
  obtain ⟨hq, _⟩ := natDiv_bounds a d hd
  rcases Nat.eq_zero_or_pos (expShift 254 (a / d)) with h0 | h0
  · rw [h0] at he
    refine le_trans he ?_
    rw [le_div_iff₀ (by positivity)]
    norm_num at h ⊢
    linarith
  · have hl := expShift_lower 254 (a / d) h0
    have hl2 : (2 : ℚ) ^ (23 + expShift 254 (a / d)) ≤ ((a / d : ℕ) : ℚ) := by exact_mod_cast hl
    refine le_trans he ?_
    rw [le_div_iff₀ (by positivity)]
    have e : (2 : ℚ) ^ expShift 254 (a / d) / 2 * 2 ^ 24 = 2 ^ (23 + expShift 254 (a / d)) := by
      rw [pow_add]; ring
    rw [e]
    linarith

theorem natAbs_cast_abs (n : ℤ) : ((n.natAbs : ℕ) : ℚ) = |(n : ℚ)| := by
  rw [Nat.cast_natAbs, Int.cast_abs]

/-- The gap between the two Doppler formulas exceeds six rounding errors -/
theorem asymmetry_core (M kf kv a q S t P R : ℚ) (hM : 0 < M) (hf : 0 < kf)
    (hv2 : M ^ 2 ≤ kv ^ 2) (hv1 : -(343 * M) ≤ kv) (hv3 : kv < 343 * M)
    (hA : 343 * kf * (1 - 1 / 2 ^ 24) ≤ a)
    (hq0 : 0 < q) (hq : q ≤ (343 * M - kv) * (1 + 1 / 2 ^ 24))
    (hS : a * M / q * (1 - 1 / 2 ^ 24) ≤ S)
    (ht : t ≤ (343 * M + kv) * (1 + 1 / 2 ^ 24))
    (hP : P ≤ kf * t / M * (1 + 1 / 2 ^ 24))
    (hR : R ≤ P * M / (343 * M) * (1 + 1 / 2 ^ 24)) : R < S := by
  have hu1 : (0 : ℚ) < 1 - 1 / 2 ^ 24 := by norm_num
  have hu2 : (0 : ℚ) < 1 + 1 / 2 ^ 24 := by norm_num
  have hd1 : 0 < 343 * M - kv := by linarith
  have hd2 : 0 ≤ 343 * M + kv := by linarith
  -- upper bound for the receiver value
  have hP2 : P ≤ kf * (343 * M + kv) / M * (1 + 1 / 2 ^ 24) ^ 2 := by
    have : kf * t / M ≤ kf * ((343 * M + kv) * (1 + 1 / 2 ^ 24)) / M := by
      apply div_le_div_of_nonneg_right _ hM.le
      exact mul_le_mul_of_nonneg_left ht hf.le
    calc P ≤ kf * t / M * (1 + 1 / 2 ^ 24) := hP
      _ ≤ kf * ((343 * M + kv) * (1 + 1 / 2 ^ 24)) / M * (1 + 1 / 2 ^ 24) :=
          mul_le_mul_of_nonneg_right this hu2.le
      _ = kf * (343 * M + kv) / M * (1 + 1 / 2 ^ 24) ^ 2 := by ring
  have e343 : ∀ x : ℚ, x * M / (343 * M) = x / 343 := by
    intro x; field_simp; ring
  have hR2 : R ≤ kf * (343 * M + kv) / M * (1 + 1 / 2 ^ 24) ^ 3 / 343 := by
    rw [e343] at hR
    have : P / 343 ≤ kf * (343 * M + kv) / M * (1 + 1 / 2 ^ 24) ^ 2 / 343 :=
      div_le_div_of_nonneg_right hP2 (by norm_num)
    calc R ≤ P / 343 * (1 + 1 / 2 ^ 24) := hR
      _ ≤ kf * (343 * M + kv) / M * (1 + 1 / 2 ^ 24) ^ 2 / 343 * (1 + 1 / 2 ^ 24) :=
          mul_le_mul_of_nonneg_right this hu2.le
      _ = kf * (343 * M + kv) / M * (1 + 1 / 2 ^ 24) ^ 3 / 343 := by ring
  -- lower bound for the source value
  have ha0 : 0 ≤ 343 * kf * (1 - 1 / 2 ^ 24) := by positivity
  have hS2 : 343 * kf * (1 - 1 / 2 ^ 24) ^ 2 * M / ((343 * M - kv) * (1 + 1 / 2 ^ 24)) ≤ S := by
    have h1 : 343 * kf * (1 - 1 / 2 ^ 24) * M / ((343 * M - kv) * (1 + 1 / 2 ^ 24)) ≤ a * M / q := by
      exact div_le_div₀ (mul_nonneg (le_trans ha0 hA) hM.le)
        (mul_le_mul_of_nonneg_right hA hM.le) hq0 hq
    calc 343 * kf * (1 - 1 / 2 ^ 24) ^ 2 * M / ((343 * M - kv) * (1 + 1 / 2 ^ 24))
        = 343 * kf * (1 - 1 / 2 ^ 24) * M / ((343 * M - kv) * (1 + 1 / 2 ^ 24)) *
            (1 - 1 / 2 ^ 24) := by ring
      _ ≤ a * M / q * (1 - 1 / 2 ^ 24) := mul_le_mul_of_nonneg_right h1 hu1.le
      _ ≤ S := hS
  -- the two bounds are apart
  have eB : kf * (343 * M + kv) / M * (1 + 1 / 2 ^ 24) ^ 3 / 343 =
      kf * (343 * M + kv) * (1 + 1 / 2 ^ 24) ^ 3 / (M * 343) := by
    rw [div_mul_eq_mul_div, div_div]
  have key : kf * (343 * M + kv) / M * (1 + 1 / 2 ^ 24) ^ 3 / 343 <
      343 * kf * (1 - 1 / 2 ^ 24) ^ 2 * M / ((343 * M - kv) * (1 + 1 / 2 ^ 24)) := by
    rw [eB, div_lt_div_iff₀ (by positivity) (by positivity)]
    have hprod : (343 * M + kv) * (343 * M - kv) ≤ (343 ^ 2 - 1) * M ^ 2 := by nlinarith
    have hc : ((343 : ℚ) ^ 2 - 1) * (1 + 1 / 2 ^ 24) ^ 4 < 343 ^ 2 * (1 - 1 / 2 ^ 24) ^ 2 := by
      norm_num
    have hM2 : 0 < M ^ 2 := by positivity
    have h1 : (343 * M + kv) * (343 * M - kv) * (1 + 1 / 2 ^ 24) ^ 4 <
        343 ^ 2 * M ^ 2 * (1 - 1 / 2 ^ 24) ^ 2 := by
      calc (343 * M + kv) * (343 * M - kv) * (1 + 1 / 2 ^ 24) ^ 4
          ≤ (343 ^ 2 - 1) * M ^ 2 * (1 + 1 / 2 ^ 24) ^ 4 :=
            mul_le_mul_of_nonneg_right hprod (by positivity)
        _ = M ^ 2 * ((343 ^ 2 - 1) * (1 + 1 / 2 ^ 24) ^ 4) := by ring
        _ < M ^ 2 * (343 ^ 2 * (1 - 1 / 2 ^ 24) ^ 2) := mul_lt_mul_of_pos_left hc hM2
        _ = 343 ^ 2 * M ^ 2 * (1 - 1 / 2 ^ 24) ^ 2 := by ring
    have h2 := mul_lt_mul_of_pos_left h1 hf
    calc kf * (343 * M + kv) * (1 + 1 / 2 ^ 24) ^ 3 * ((343 * M - kv) * (1 + 1 / 2 ^ 24))
        = kf * ((343 * M + kv) * (343 * M - kv) * (1 + 1 / 2 ^ 24) ^ 4) := by ring
      _ < kf * (343 ^ 2 * M ^ 2 * (1 - 1 / 2 ^ 24) ^ 2) := h2
      _ = 343 * kf * (1 - 1 / 2 ^ 24) ^ 2 * M * (M * 343) := by ring
  linarith

/-- In the clamp zone the moving-source value is far above the moving-receiver one -/
theorem asymmetry_clamp (M kf kv a m S t P R : ℚ) (hM : 0 < M) (hf : 0 < kf)
    (hv3 : kv ≤ 343 * M)
    (hA : 343 * kf * (1 - 1 / 2 ^ 24) ≤ a)
    (hm0 : 0 < m) (hm : m ≤ M / 999)
    (hS : a * M / m * (1 - 1 / 2 ^ 24) ≤ S)
    (ht : t ≤ (343 * M + kv) * (1 + 1 / 2 ^ 24))
    (hP : P ≤ kf * t / M * (1 + 1 / 2 ^ 24))
    (hR : R ≤ P * M / (343 * M) * (1 + 1 / 2 ^ 24)) : R < S := by
  have hu1 : (0 : ℚ) < 1 - 1 / 2 ^ 24 := by norm_num
  have hu2 : (0 : ℚ) < 1 + 1 / 2 ^ 24 := by norm_num
  have ht2 : t ≤ 686 * M * (1 + 1 / 2 ^ 24) := by
    have : (343 * M + kv) * (1 + 1 / 2 ^ 24) ≤ 686 * M * (1 + 1 / 2 ^ 24) :=
      mul_le_mul_of_nonneg_right (by linarith) hu2.le
    linarith
  have hP2 : P ≤ kf * 686 * (1 + 1 / 2 ^ 24) ^ 2 := by
    have : kf * t / M ≤ kf * (686 * M * (1 + 1 / 2 ^ 24)) / M := by
      apply div_le_div_of_nonneg_right _ hM.le
      exact mul_le_mul_of_nonneg_left ht2 hf.le
    calc P ≤ kf * t / M * (1 + 1 / 2 ^ 24) := hP
      _ ≤ kf * (686 * M * (1 + 1 / 2 ^ 24)) / M * (1 + 1 / 2 ^ 24) :=
          mul_le_mul_of_nonneg_right this hu2.le
      _ = kf * 686 * (1 + 1 / 2 ^ 24) ^ 2 := by field_simp; ring
  have e343 : ∀ x : ℚ, x * M / (343 * M) = x / 343 := by
    intro x; field_simp; ring
  have hR2 : R ≤ kf * 2 * (1 + 1 / 2 ^ 24) ^ 3 := by
    rw [e343] at hR
    have : P / 343 ≤ kf * 686 * (1 + 1 / 2 ^ 24) ^ 2 / 343 :=
      div_le_div_of_nonneg_right hP2 (by norm_num)
    calc R ≤ P / 343 * (1 + 1 / 2 ^ 24) := hR
      _ ≤ kf * 686 * (1 + 1 / 2 ^ 24) ^ 2 / 343 * (1 + 1 / 2 ^ 24) :=
          mul_le_mul_of_nonneg_right this hu2.le
      _ = kf * 2 * (1 + 1 / 2 ^ 24) ^ 3 := by ring
  have hS2 : 343 * kf * (1 - 1 / 2 ^ 24) ^ 2 * 999 ≤ S := by
    have ha0 : 0 ≤ 343 * kf * (1 - 1 / 2 ^ 24) := by positivity
    have h1 : 343 * kf * (1 - 1 / 2 ^ 24) * M / (M / 999) ≤ a * M / m := by
      exact div_le_div₀ (mul_nonneg (le_trans ha0 hA) hM.le)
        (mul_le_mul_of_nonneg_right hA hM.le) hm0 hm
    have e : 343 * kf * (1 - 1 / 2 ^ 24) * M / (M / 999) = 343 * kf * (1 - 1 / 2 ^ 24) * 999 := by
      field_simp; ring
    rw [e] at h1
    calc 343 * kf * (1 - 1 / 2 ^ 24) ^ 2 * 999
        = 343 * kf * (1 - 1 / 2 ^ 24) * 999 * (1 - 1 / 2 ^ 24) := by ring
      _ ≤ a * M / m * (1 - 1 / 2 ^ 24) := mul_le_mul_of_nonneg_right h1 hu1.le
      _ ≤ S := hS
  have key : kf * 2 * (1 + 1 / 2 ^ 24) ^ 3 < 343 * kf * (1 - 1 / 2 ^ 24) ^ 2 * 999 := by
    have hc : (2 : ℚ) * (1 + 1 / 2 ^ 24) ^ 3 < 343 * (1 - 1 / 2 ^ 24) ^ 2 * 999 := by norm_num
    have := mul_lt_mul_of_pos_left hc hf
    linarith
  linarith

/-- Rounding an integer: the error is at most `2 ^ (-24)` of the number -/
theorem roundMag_rel_int (a : ℕ) : |(roundMag a 1 : ℚ) - a| ≤ (a : ℚ) / 2 ^ 24 := by
  rcases Nat.eq_zero_or_pos (expShift 254 (a / 1)) with h0 | h0
  · have : roundMag a 1 = a := by
      unfold roundMag
      simp only
      rw [h0]
      simpa using roundHalfEven_exact a 1 Nat.one_pos
    rw [this]
    simp only [sub_self, abs_zero]
    positivity
  · have he := roundMag_error a 1 Nat.one_pos
    have hl := expShift_lower 254 (a / 1) h0
    rw [Nat.div_one] at hl he
    have hl2 : (2 : ℚ) ^ (23 + expShift 254 a) ≤ (a : ℚ) := by exact_mod_cast hl
    simp only [Nat.cast_one, div_one] at he
    refine le_trans he ?_
    rw [le_div_iff₀ (by positivity)]
    have e : (2 : ℚ) ^ expShift 254 a / 2 * 2 ^ 24 = 2 ^ (23 + expShift 254 a) := by
      rw [pow_add]; ring
    rw [e]
    exact hl2

/-- Relative error bounds for a non-negative quotient in the normal range -/
theorem roundInt_rel (n : ℤ) (d : ℕ) (hd : 0 < d) (hn : 0 ≤ n)
    (h : (2 : ℚ) ^ 23 ≤ (n : ℚ) / d) :
    (n : ℚ) / d * (1 - 1 / 2 ^ 24) ≤ roundInt n d ∧
      (roundInt n d : ℚ) ≤ (n : ℚ) / d * (1 + 1 / 2 ^ 24) := by
  have e : ((n.natAbs : ℕ) : ℚ) = (n : ℚ) := by
    rw [natAbs_cast_abs, abs_of_nonneg (by exact_mod_cast hn)]
  have hr := roundMag_rel n.natAbs d hd (by rw [e]; exact h)
  rw [e, abs_le] at hr
  rw [roundInt_nonneg n d hn]
  push_cast
  constructor <;> linarith [hr.1, hr.2]

/-- Relative error bounds for a non-negative integer -/
theorem roundInt_rel_int (n : ℤ) (hn : 0 ≤ n) :
    (n : ℚ) * (1 - 1 / 2 ^ 24) ≤ roundInt n 1 ∧
      (roundInt n 1 : ℚ) ≤ (n : ℚ) * (1 + 1 / 2 ^ 24) := by
  have e : ((n.natAbs : ℕ) : ℚ) = (n : ℚ) := by
    rw [natAbs_cast_abs, abs_of_nonneg (by exact_mod_cast hn)]
  have hr := roundMag_rel_int n.natAbs
  rw [e, abs_le] at hr
  rw [roundInt_nonneg n 1 hn]
  push_cast
  constructor <;> linarith [hr.1, hr.2]

theorem lt_ofInt (r s : ℤ) (hr : r.natAbs < 2 ^ 128 * 2 ^ 149) (h : r < s) :
    F32.lt (ofInt r) (ofInt s) = true := by
  rw [ofInt_of_lt r hr]
  rcases ofInt_cases s with ⟨e, _⟩ | ⟨e, _, _⟩ | ⟨e, hn, hb⟩
  · rw [e]; simpa [F32.lt] using h
  · rw [e]; simp [F32.lt]
  · exfalso; omega

set_option maxRecDepth 100000 in
theorem roundInt_twice_speedOfSound : roundInt (686 * 2 ^ 149) 1 = 686 * 2 ^ 149 := by decide

set_option maxRecDepth 100000 in
theorem roundInt_unit_product :
    roundInt (2 ^ 149 * (343 * 2 ^ 149)) (2 ^ 149) = 343 * 2 ^ 149 := by decide

set_option maxRecDepth 100000 in
theorem roundInt_top_product :
    roundInt (2 ^ 100 * 2 ^ 149 * (343 * 2 ^ 149)) (2 ^ 149) = 343 * 2 ^ 100 * 2 ^ 149 := by
  decide

set_option maxRecDepth 100000 in
theorem roundInt_top_receiver :
    roundInt (2 ^ 100 * 2 ^ 149 * (686 * 2 ^ 149)) (2 ^ 149) = 686 * 2 ^ 100 * 2 ^ 149 := by
  decide

set_option maxRecDepth 100000 in
theorem roundInt_top_quotient :
    roundInt (686 * 2 ^ 100 * 2 ^ 149 * 2 ^ 149) (343 * 2 ^ 149 : ℤ).natAbs =
      2 * 2 ^ 100 * 2 ^ 149 := by
  decide

set_option maxRecDepth 100000 in
theorem roundInt_tiny_product :
    roundInt (2 ^ 100 * 2 ^ 149 * 2 ^ 40) (2 ^ 149) = 2 ^ 140 := by decide

set_option maxRecDepth 100000 in
theorem roundInt_tiny_quotient :
    roundInt (2 ^ 140 * 2 ^ 149) (343 * 2 ^ 149 : ℤ).natAbs < 2 ^ 148 := by decide

set_option maxRecDepth 100000 in
theorem roundInt_half :
    roundInt (343 * 2 ^ 149 * 2 ^ 149) (686 * 2 ^ 149 : ℤ).natAbs = 2 ^ 148 := by decide

set_option maxRecDepth 100000 in
theorem milli_le : milli * 999 ≤ 2 ^ 149 ∧ milli ≤ 686 * 2 ^ 149 := by decide

theorem clampInt_of_le (q : ℤ) (h : milli ≤ q) : clampInt q = q := by
  have hp := milli_pos
  unfold clampInt
  rw [if_neg]
  rw [abs_of_nonneg (by omega)]
  omega

theorem clampInt_of_lt (q : ℤ) (h0 : 0 ≤ q) (h : q < milli) : clampInt q = milli := by
  unfold clampInt
  rw [if_pos (by rw [abs_of_nonneg h0]; exact h), if_pos h0]

/-- Quotients of non-negative numbers by positive ones as rationals -/
theorem roundInt_div_mono (n1 n2 d1 d2 : ℤ) (hn1 : 0 ≤ n1) (hn : n1 ≤ n2) (hd2 : 0 < d2)
    (hd : d2 ≤ d1) : roundInt n1 d1.natAbs ≤ roundInt n2 d2.natAbs := by
  have hd1 : 0 < d1 := lt_of_lt_of_le hd2 hd
  have e1 : (d1.natAbs : ℤ) = d1 := Int.natAbs_of_nonneg hd1.le
  have e2 : (d2.natAbs : ℤ) = d2 := Int.natAbs_of_nonneg hd2.le
  apply roundInt_mono _ _ _ _ (by omega) (by omega)
  have p1 : (0 : ℚ) < d1 := by exact_mod_cast hd1
  have p2 : (0 : ℚ) < d2 := by exact_mod_cast hd2
  have c1 : ((d1.natAbs : ℕ) : ℚ) = (d1 : ℚ) := by rw [natAbs_cast_abs, abs_of_pos p1]
  have c2 : ((d2.natAbs : ℕ) : ℚ) = (d2 : ℚ) := by rw [natAbs_cast_abs, abs_of_pos p2]
  rw [c1, c2]
  have q1 : (0 : ℚ) ≤ n1 := by exact_mod_cast hn1
  have q2 : (n1 : ℚ) ≤ n2 := by exact_mod_cast hn
  have q3 : (d2 : ℚ) ≤ d1 := by exact_mod_cast hd
  exact div_le_div₀ (le_trans q1 q2) q2 p2 q3

set_option maxHeartbeats 1000000 in
set_option maxRecDepth 100000 in
/-- The two modes at a radial speed between 1 and 343 in magnitude -/
theorem asymmetry_fin (kf kv : ℤ) (hf1 : 2 ^ 149 ≤ kf) (hf2 : kf ≤ 2 ^ 100 * 2 ^ 149)
    (hv1 : -(343 * 2 ^ 149) ≤ kv) (hv3 : kv ≤ 343 * 2 ^ 149) (hv2 : 2 ^ 149 ≤ |kv|) :
    F32.lt
      (F32.div (F32.mul (F32.fin kf) (F32.add SPEED_OF_SOUND (F32.fin kv))) SPEED_OF_SOUND)
      (F32.div (F32.mul (F32.fin kf) SPEED_OF_SOUND) (sourceDenom (F32.fin kv))) = true := by
  have hmp := milli_pos
  obtain ⟨hm999, hm686⟩ := milli_le
  obtain ⟨M, hM⟩ : ∃ M : ℚ, M = 2 ^ 149 := ⟨_, rfl⟩
  have hM0 : 0 < M := by rw [hM]; positivity
  have hMn : ((2 ^ 149 : ℕ) : ℚ) = M := by rw [hM]; push_cast; rfl
  have hMi : ((2 ^ 149 : ℤ) : ℚ) = M := by rw [hM]; push_cast; rfl
  have hM23 : (2 : ℚ) ^ 40 ≤ M := by rw [hM]; norm_num
  have hkf : M ≤ (kf : ℚ) := by rw [← hMi]; exact_mod_cast hf1
  have hkf0 : (0 : ℚ) < kf := lt_of_lt_of_le hM0 hkf
  have hC : ((343 * 2 ^ 149 : ℤ) : ℚ) = 343 * M := by
    rw [Int.cast_mul, hMi]; norm_num
  have hkv1 : -(343 * M) ≤ (kv : ℚ) := by
    have := (Int.cast_le (R := ℚ)).mpr hv1
    rwa [Int.cast_neg, hC] at this
  have hkv3 : (kv : ℚ) ≤ 343 * M := by
    have := (Int.cast_le (R := ℚ)).mpr hv3
    rwa [hC] at this
  have hkv2 : M ^ 2 ≤ (kv : ℚ) ^ 2 := by
    have : ((2 ^ 149 : ℤ) : ℚ) ≤ ((|kv| : ℤ) : ℚ) := by exact_mod_cast hv2
    rw [hMi, Int.cast_abs] at this
    rw [← sq_abs (kv : ℚ)]
    exact pow_le_pow_left₀ hM0.le this 2
  -- the product baseFreq * c
  have a_lo : 343 * 2 ^ 149 ≤ roundInt (kf * (343 * 2 ^ 149)) (2 ^ 149) := by
    rw [← roundInt_unit_product]
    apply roundInt_mono _ _ _ _ (by positivity) (by positivity)
    apply div_le_div_of_nonneg_right _ (by positivity)
    have : 2 ^ 149 * (343 * 2 ^ 149) ≤ kf * (343 * 2 ^ 149) :=
      mul_le_mul_of_nonneg_right hf1 (by positivity)
    exact_mod_cast this
  have a_hi : roundInt (kf * (343 * 2 ^ 149)) (2 ^ 149) ≤ 343 * 2 ^ 100 * 2 ^ 149 := by
    rw [← roundInt_top_product]
    apply roundInt_mono _ _ _ _ (by positivity) (by positivity)
    apply div_le_div_of_nonneg_right _ (by positivity)
    have : kf * (343 * 2 ^ 149) ≤ 2 ^ 100 * 2 ^ 149 * (343 * 2 ^ 149) :=
      mul_le_mul_of_nonneg_right hf2 (by positivity)
    exact_mod_cast this
  have a_rel : 343 * (kf : ℚ) * (1 - 1 / 2 ^ 24) ≤
      (roundInt (kf * (343 * 2 ^ 149)) (2 ^ 149) : ℚ) := by
    have e : ((kf * (343 * 2 ^ 149) : ℤ) : ℚ) / ((2 ^ 149 : ℕ) : ℚ) = 343 * (kf : ℚ) := by
      rw [Int.cast_mul, hC, hMn]; field_simp; ring
    have h := (roundInt_rel (kf * (343 * 2 ^ 149)) (2 ^ 149) (by positivity) (by positivity)
      (by rw [e]; nlinarith)).1
    rwa [e] at h
  have ea : F32.mul (F32.fin kf) SPEED_OF_SOUND =
      F32.fin (roundInt (kf * (343 * 2 ^ 149)) (2 ^ 149)) := by
    rw [speedOfSound32_eq]
    simp only [F32.mul, round]
    exact ofInt_of_lt _ (by omega)
  -- the sum c + vr
  have t_lo : 0 ≤ roundInt (343 * 2 ^ 149 + kv) 1 := by
    rw [← roundInt_zero 1]; exact roundInt_one_mono _ _ (by omega)
  have t_hi : roundInt (343 * 2 ^ 149 + kv) 1 ≤ 686 * 2 ^ 149 := by
    rw [← roundInt_twice_speedOfSound]; exact roundInt_one_mono _ _ (by omega)
  have t_rel : (roundInt (343 * 2 ^ 149 + kv) 1 : ℚ) ≤ (343 * M + kv) * (1 + 1 / 2 ^ 24) := by
    have h := (roundInt_rel_int (343 * 2 ^ 149 + kv) (by omega)).2
    rwa [Int.cast_add, hC] at h
  have et : F32.add SPEED_OF_SOUND (F32.fin kv) = F32.fin (roundInt (343 * 2 ^ 149 + kv) 1) := by
    rw [speedOfSound32_eq]
    simp only [F32.add, round]
    exact ofInt_of_lt _ (by omega)
  -- the difference c - vr
  have q_lo : 0 ≤ roundInt (343 * 2 ^ 149 - kv) 1 := by
    rw [← roundInt_zero 1]; exact roundInt_one_mono _ _ (by omega)
  have q_hi : roundInt (343 * 2 ^ 149 - kv) 1 ≤ 686 * 2 ^ 149 := by
    rw [← roundInt_twice_speedOfSound]; exact roundInt_one_mono _ _ (by omega)
  have q_rel : (roundInt (343 * 2 ^ 149 - kv) 1 : ℚ) ≤ (343 * M - kv) * (1 + 1 / 2 ^ 24) := by
    have h := (roundInt_rel_int (343 * 2 ^ 149 - kv) (by omega)).2
    rwa [Int.cast_sub, hC] at h
  have q_zero : kv = 343 * 2 ^ 149 → roundInt (343 * 2 ^ 149 - kv) 1 = 0 := by
    intro h; rw [h, sub_self, roundInt_zero]
  have eq : F32.sub SPEED_OF_SOUND (F32.fin kv) = F32.fin (roundInt (343 * 2 ^ 149 - kv) 1) := by
    rw [sub_speedOfSound_fin]
    exact ofInt_of_lt _ (by omega)
  rw [ea, et, sourceDenom_of_sub_fin _ _ eq]
  generalize roundInt (kf * (343 * 2 ^ 149)) (2 ^ 149) = a at a_lo a_hi a_rel
  generalize roundInt (343 * 2 ^ 149 + kv) 1 = t at t_lo t_hi t_rel
  generalize roundInt (343 * 2 ^ 149 - kv) 1 = q at q_lo q_hi q_rel q_zero
  -- the receiver product and quotient
  have P_lo : 0 ≤ roundInt (kf * t) (2 ^ 149) := by
    rw [← roundInt_zero (2 ^ 149)]
    apply roundInt_mono _ _ _ _ (by positivity) (by positivity)
    apply div_le_div_of_nonneg_right _ (by positivity)
    have : (0 : ℤ) ≤ kf * t := mul_nonneg (by omega) t_lo
    exact_mod_cast this
  have P_hi : roundInt (kf * t) (2 ^ 149) ≤ 686 * 2 ^ 100 * 2 ^ 149 := by
    rw [← roundInt_top_receiver]
    apply roundInt_mono _ _ _ _ (by positivity) (by positivity)
    apply div_le_div_of_nonneg_right _ (by positivity)
    have : kf * t ≤ 2 ^ 100 * 2 ^ 149 * (686 * 2 ^ 149) :=
      mul_le_mul hf2 t_hi t_lo (by positivity)
    exact_mod_cast this
  have eP : F32.mul (F32.fin kf) (F32.fin t) = F32.fin (roundInt (kf * t) (2 ^ 149)) := by
    simp only [F32.mul, round]
    exact ofInt_of_lt _ (by omega)
  have R_lo : 0 ≤ roundInt (roundInt (kf * t) (2 ^ 149) * 2 ^ 149) (343 * 2 ^ 149 : ℤ).natAbs := by
    rw [← roundInt_zero (343 * 2 ^ 149 : ℤ).natAbs]
    exact roundInt_div_mono _ _ _ _ (le_refl 0) (by positivity) (by positivity) (le_refl _)
  have R_hi : roundInt (roundInt (kf * t) (2 ^ 149) * 2 ^ 149) (343 * 2 ^ 149 : ℤ).natAbs ≤
      2 * 2 ^ 100 * 2 ^ 149 := by
    rw [← roundInt_top_quotient]
    exact roundInt_div_mono _ _ _ _ (by positivity)
      (mul_le_mul_of_nonneg_right P_hi (by positivity)) (by positivity) (le_refl _)
  have eR : F32.div (F32.fin (roundInt (kf * t) (2 ^ 149))) SPEED_OF_SOUND =
      ofInt (roundInt (roundInt (kf * t) (2 ^ 149) * 2 ^ 149) (343 * 2 ^ 149 : ℤ).natAbs) := by
    rw [speedOfSound32_eq]
    simp only [F32.div, round]
    rw [if_neg (by norm_num), if_neg (by norm_num)]
  have hcl := clampInt_abs q
  have hcl0 : 0 < clampInt q := by
    rcases lt_or_le q milli with h | h
    · rw [clampInt_of_lt q q_lo h]; exact hmp
    · rw [clampInt_of_le q h]; omega
  have eS : F32.div (F32.fin a) (F32.fin (clampInt q)) =
      ofInt (roundInt (a * 2 ^ 149) (clampInt q).natAbs) := by
    simp only [F32.div, round]
    rw [if_neg (ne_of_gt hcl0), if_neg (not_lt.mpr hcl0.le)]
  rw [eP, eR, eS]
  apply lt_ofInt _ _ (by omega)
  have hcl686 : clampInt q ≤ 686 * 2 ^ 149 := by
    rcases lt_or_le q milli with h | h
    · rw [clampInt_of_lt q q_lo h]; exact hm686
    · rw [clampInt_of_le q h]; exact q_hi
  rcases lt_or_le t (2 ^ 40) with htiny | hnormal
  · -- the sum is tiny: the receiver value is far below one half
    have P_tiny : roundInt (kf * t) (2 ^ 149) ≤ 2 ^ 140 := by
      rw [← roundInt_tiny_product]
      apply roundInt_mono _ _ _ _ (by positivity) (by positivity)
      apply div_le_div_of_nonneg_right _ (by positivity)
      have : kf * t ≤ 2 ^ 100 * 2 ^ 149 * 2 ^ 40 :=
        mul_le_mul hf2 htiny.le t_lo (by positivity)
      exact_mod_cast this
    have R_tiny := roundInt_div_mono (roundInt (kf * t) (2 ^ 149) * 2 ^ 149) (2 ^ 140 * 2 ^ 149)
      (343 * 2 ^ 149) (343 * 2 ^ 149) (by positivity)
      (mul_le_mul_of_nonneg_right P_tiny (by positivity)) (by positivity) (le_refl _)
    have S_half := roundInt_div_mono (343 * 2 ^ 149 * 2 ^ 149) (a * 2 ^ 149)
      (686 * 2 ^ 149) (clampInt q) (by positivity)
      (mul_le_mul_of_nonneg_right a_lo (by positivity)) hcl0 hcl686
    rw [roundInt_half] at S_half
    exact lt_of_le_of_lt R_tiny (lt_of_lt_of_le roundInt_tiny_quotient S_half)
  · -- the normal range: every operation has relative error at most 2 ^ (-24)
    have ht40 : (2 : ℚ) ^ 40 ≤ (t : ℚ) := by exact_mod_cast hnormal
    have ht0 : (0 : ℚ) ≤ (t : ℚ) := by exact_mod_cast t_lo
    have eP' : ((kf * t : ℤ) : ℚ) / ((2 ^ 149 : ℕ) : ℚ) = kf * t / M := by
      rw [Int.cast_mul, hMn]
    have hxP : (2 : ℚ) ^ 40 ≤ kf * t / M := by
      rw [le_div_iff₀ hM0]
      have := mul_le_mul hkf ht40 (by positivity) hkf0.le
      linarith
    have hkfi : 0 ≤ kf := le_trans (by positivity) hf1
    obtain ⟨P_rl, P_ru⟩ := roundInt_rel (kf * t) (2 ^ 149) (by positivity)
      (mul_nonneg hkfi t_lo) (by rw [eP']; exact le_trans (by norm_num) hxP)
    rw [eP'] at P_rl P_ru
    have hCn : (((343 * 2 ^ 149 : ℤ).natAbs : ℕ) : ℚ) = 343 * M := by
      rw [natAbs_cast_abs, hC, abs_of_pos (by positivity)]
    have eR' : ((roundInt (kf * t) (2 ^ 149) * 2 ^ 149 : ℤ) : ℚ) /
        (((343 * 2 ^ 149 : ℤ).natAbs : ℕ) : ℚ) =
        (roundInt (kf * t) (2 ^ 149) : ℚ) * M / (343 * M) := by
      rw [Int.cast_mul, hMi, hCn]
    have hP39 : (2 : ℚ) ^ 39 ≤ (roundInt (kf * t) (2 ^ 149) : ℚ) := by
      have h1 : (2 : ℚ) ^ 40 * (1 - 1 / 2 ^ 24) ≤ kf * t / M * (1 - 1 / 2 ^ 24) :=
        mul_le_mul_of_nonneg_right hxP (by norm_num)
      have h2 : (2 : ℚ) ^ 39 ≤ 2 ^ 40 * (1 - 1 / 2 ^ 24) := by norm_num
      exact le_trans h2 (le_trans h1 P_rl)
    have hxR : (2 : ℚ) ^ 23 ≤ (roundInt (kf * t) (2 ^ 149) : ℚ) * M / (343 * M) := by
      rw [le_div_iff₀ (by positivity)]
      have : (2 : ℚ) ^ 23 * 343 ≤ 2 ^ 39 := by norm_num
      nlinarith
    obtain ⟨_, R_ru⟩ := roundInt_rel (roundInt (kf * t) (2 ^ 149) * 2 ^ 149)
      (343 * 2 ^ 149 : ℤ).natAbs (by decide) (mul_nonneg P_lo (by positivity))
      (by rw [eR']; exact hxR)
    rw [eR'] at R_ru
    have hclq : (((clampInt q).natAbs : ℕ) : ℚ) = (clampInt q : ℚ) := by
      rw [natAbs_cast_abs, abs_of_pos (by exact_mod_cast hcl0)]
    have eS' : ((a * 2 ^ 149 : ℤ) : ℚ) / (((clampInt q).natAbs : ℕ) : ℚ) =
        (a : ℚ) * M / (clampInt q : ℚ) := by
      rw [Int.cast_mul, hMi, hclq]
    have ha343 : 343 * M ≤ (a : ℚ) := by
      have := (Int.cast_le (R := ℚ)).mpr a_lo
      rwa [hC] at this
    have hcl0q : (0 : ℚ) < (clampInt q : ℚ) := by exact_mod_cast hcl0
    have hclu : (clampInt q : ℚ) ≤ 686 * M := by
      have := (Int.cast_le (R := ℚ)).mpr hcl686
      rw [Int.cast_mul, hMi] at this
      norm_num at this
      exact this
    have hxS : (2 : ℚ) ^ 23 ≤ (a : ℚ) * M / (clampInt q : ℚ) := by
      rw [le_div_iff₀ hcl0q]
      have h1 : (2 : ℚ) ^ 23 * (clampInt q : ℚ) ≤ 2 ^ 23 * (686 * M) :=
        mul_le_mul_of_nonneg_left hclu (by positivity)
      have h2 : 343 * M * M ≤ (a : ℚ) * M := mul_le_mul_of_nonneg_right ha343 hM0.le
      have h3 : (2 : ℚ) ^ 23 * (686 * M) ≤ 343 * M * M := by nlinarith
      linarith
    have ha0 : 0 ≤ a := le_trans (by positivity) a_lo
    obtain ⟨S_rl, _⟩ := roundInt_rel (a * 2 ^ 149) (clampInt q).natAbs
      (Int.natAbs_pos.mpr (ne_of_gt hcl0)) (mul_nonneg ha0 (by positivity))
      (by rw [eS']; exact hxS)
    rw [eS'] at S_rl
    have goal : (roundInt (roundInt (kf * t) (2 ^ 149) * 2 ^ 149) (343 * 2 ^ 149 : ℤ).natAbs : ℚ) <
        (roundInt (a * 2 ^ 149) (clampInt q).natAbs : ℚ) := by
      rcases lt_or_le q milli with hc | hc
      · rw [clampInt_of_lt q q_lo hc] at S_rl ⊢
        have hmq : (milli : ℚ) ≤ M / 999 := by
          rw [le_div_iff₀ (by norm_num)]
          have := (Int.cast_le (R := ℚ)).mpr hm999
          rw [Int.cast_mul, hMi] at this
          norm_num at this
          exact this
        exact asymmetry_clamp M kf kv a milli _ t _ _ hM0 hkf0 hkv3 a_rel
          (by exact_mod_cast hmp) hmq S_rl t_rel P_ru R_ru
      · rw [clampInt_of_le q hc] at S_rl ⊢
        have hq0 : (0 : ℚ) < (q : ℚ) := by
          have : 0 < q := by omega
          exact_mod_cast this
        have hlt : (kv : ℚ) < 343 * M := by
          rcases eq_or_lt_of_le hv3 with e | e
          · have := q_zero e; omega
          · have := (Int.cast_lt (R := ℚ)).mpr e
            rwa [hC] at this
        exact asymmetry_core M kf kv a q _ t _ _ hM0 hkf0 hkv2 hkv1 hlt a_rel hq0 q_rel
          S_rl t_rel P_ru R_ru
    exact_mod_cast goal

/-! ### Signs -/

theorem ofInt_neg (k : ℤ) (h : k < 0) : F32.lt (ofInt k) (F32.fin 0) = true := by
  rcases ofInt_cases k with ⟨e, _⟩ | ⟨e, hp, _⟩ | ⟨e, _, _⟩
  · rw [e]; simpa [F32.lt] using h
  · exfalso; omega
  · rw [e]; rfl

theorem ofInt_nonpos (k : ℤ) (h : k ≤ 0) : F32.le (ofInt k) (F32.fin 0) = true := by
  rcases ofInt_cases k with ⟨e, _⟩ | ⟨e, hp, _⟩ | ⟨e, _, _⟩
  · rw [e]; simpa [F32.le] using h
  · exfalso; omega
  · rw [e]; rfl

theorem ofInt_pos (k : ℤ) (h : 0 < k) : F32.lt (F32.fin 0) (ofInt k) = true := by
  rcases ofInt_cases k with ⟨e, _⟩ | ⟨e, hp, _⟩ | ⟨e, hn, _⟩
  · rw [e]; simpa [F32.lt] using h
  · rw [e]; rfl
  · exfalso; omega

theorem ofInt_nonneg (k : ℤ) (h : 0 ≤ k) : F32.le (F32.fin 0) (ofInt k) = true := by
  rcases ofInt_cases k with ⟨e, _⟩ | ⟨e, hp, _⟩ | ⟨e, hn, _⟩
  · rw [e]; simpa [F32.le] using h
  · rw [e]; rfl
  · exfalso; omega

theorem lt_of_neg_of_nonneg (x y : F32) (hx : F32.lt x (F32.fin 0) = true)
    (hy : F32.le (F32.fin 0) y = true) : F32.lt x y = true := by
  cases x with
  | fin a =>
    cases y with
    | fin b => simp only [F32.lt, F32.le, decide_eq_true_eq] at hx hy ⊢; omega
    | inf t => cases t <;> simp_all [F32.lt, F32.le]
    | nan => simp [F32.le] at hy
  | inf s =>
    cases s
    · simp [F32.lt] at hx
    · cases y with
      | fin b => rfl
      | inf t => cases t <;> simp_all [F32.lt, F32.le]
      | nan => simp [F32.le] at hy
  | nan => simp [F32.lt] at hx

theorem lt_of_nonpos_of_pos (x y : F32) (hx : F32.le x (F32.fin 0) = true)
    (hy : F32.lt (F32.fin 0) y = true) : F32.lt x y = true := by
  cases x with
  | fin a =>
    cases y with
    | fin b => simp only [F32.lt, F32.le, decide_eq_true_eq] at hx hy ⊢; omega
    | inf t => cases t <;> simp_all [F32.lt, F32.le]
    | nan => simp [F32.lt] at hy
  | inf s =>
    cases s
    · simp [F32.le] at hx
    · cases y with
      | fin b => rfl
      | inf t => cases t <;> simp_all [F32.lt, F32.le]
      | nan => simp [F32.lt] at hy
  | nan => simp [F32.le] at hx

set_option maxRecDepth 100000 in
theorem roundInt_far_sum : roundInt (343 * 2 ^ 149 - 2 ^ 201) 1 ≤ -(2 ^ 200) := by decide

set_option maxRecDepth 100000 in
theorem roundInt_far_product : roundInt (2 ^ 149 * -(2 ^ 200)) (2 ^ 149) = -(2 ^ 200) := by decide

set_option maxRecDepth 100000 in
theorem roundInt_far_quotient :
    roundInt (-(2 ^ 200) * 2 ^ 149) (343 * 2 ^ 149 : ℤ).natAbs < 0 := by decide

set_option maxRecDepth 100000 in
theorem roundInt_moderate_diff :
    roundInt (343 * 2 ^ 149 + 2 ^ 201) 1 ≤ 2 ^ 202 := by decide

set_option maxRecDepth 100000 in
theorem roundInt_moderate_quotient :
    0 < roundInt (343 * 2 ^ 149 * 2 ^ 149) (2 ^ 202 : ℤ).natAbs := by decide

set_option maxRecDepth 100000 in
/-- The moving-receiver value for a sum `c + vr` at most `-2 ^ 51` is negative -/
theorem receiver_neg (kf : ℤ) (hf1 : 2 ^ 149 ≤ kf) (x : F32)
    (hx : F32.le x (F32.fin (-(2 ^ 200))) = true) :
    F32.lt (F32.div (F32.mul (F32.fin kf) x) SPEED_OF_SOUND) (F32.fin 0) = true := by
  have hkf : 0 < kf := lt_of_lt_of_le (by positivity) hf1
  rw [speedOfSound32_eq]
  cases x with
  | fin t =>
    simp only [F32.le, decide_eq_true_eq] at hx
    have hP : roundInt (kf * t) (2 ^ 149) ≤ -(2 ^ 200) := by
      rw [← roundInt_far_product]
      apply roundInt_mono _ _ _ _ (by positivity) (by positivity)
      apply div_le_div_of_nonneg_right _ (by positivity)
      have : kf * t ≤ 2 ^ 149 * -(2 ^ 200) := by nlinarith
      exact_mod_cast this
    simp only [F32.mul, round]
    rcases ofInt_cases (roundInt (kf * t) (2 ^ 149)) with ⟨e, _⟩ | ⟨e, hp, _⟩ | ⟨e, _, _⟩
    · rw [e]
      simp only [F32.div, round]
      rw [if_neg (by norm_num), if_neg (by norm_num)]
      apply ofInt_neg
      refine lt_of_le_of_lt ?_ roundInt_far_quotient
      apply roundInt_mono _ _ _ _ (by decide) (by decide)
      apply div_le_div_of_nonneg_right _ (by positivity)
      have : roundInt (kf * t) (2 ^ 149) * 2 ^ 149 ≤ -(2 ^ 200) * 2 ^ 149 :=
        mul_le_mul_of_nonneg_right hP (by positivity)
      exact_mod_cast this
    · exfalso
      have : (0 : ℤ) < 2 ^ 200 := by positivity
      omega
    · rw [e]; rfl
  | inf s =>
    cases s
    · simp [F32.le] at hx
    · simp [F32.mul, F32.div, F32.lt, ne_of_gt hkf, not_lt.mpr hkf.le]
  | nan => simp [F32.le] at hx

set_option maxRecDepth 100000 in
/-- The moving-receiver value for a sum `c + vr` at most 0 is at most 0 -/
theorem receiver_nonpos (kf : ℤ) (hf1 : 2 ^ 149 ≤ kf) (x : F32)
    (hx : F32.le x (F32.fin 0) = true) :
    F32.le (F32.div (F32.mul (F32.fin kf) x) SPEED_OF_SOUND) (F32.fin 0) = true := by
  have hkf : 0 < kf := lt_of_lt_of_le (by positivity) hf1
  rw [speedOfSound32_eq]
  cases x with
  | fin t =>
    simp only [F32.le, decide_eq_true_eq] at hx
    have hP : roundInt (kf * t) (2 ^ 149) ≤ 0 := by
      rw [← roundInt_zero (2 ^ 149)]
      apply roundInt_mono _ _ _ _ (by positivity) (by positivity)
      apply div_le_div_of_nonneg_right _ (by positivity)
      have : kf * t ≤ 0 := by nlinarith
      exact_mod_cast this
    simp only [F32.mul, round]
    rcases ofInt_cases (roundInt (kf * t) (2 ^ 149)) with ⟨e, _⟩ | ⟨e, hp, _⟩ | ⟨e, _, _⟩
    · rw [e]
      simp only [F32.div, round]
      rw [if_neg (by norm_num), if_neg (by norm_num)]
      apply ofInt_nonpos
      rw [← roundInt_zero (343 * 2 ^ 149 : ℤ).natAbs]
      apply roundInt_mono _ _ _ _ (by decide) (by decide)
      apply div_le_div_of_nonneg_right _ (by positivity)
      have : roundInt (kf * t) (2 ^ 149) * 2 ^ 149 ≤ 0 :=
        mul_nonpos_of_nonpos_of_nonneg hP (by positivity)
      exact_mod_cast this
    · exfalso; omega
    · rw [e]; rfl
  | inf s =>
    cases s
    · simp [F32.le] at hx
    · simp [F32.mul, F32.div, F32.le, ne_of_gt hkf, not_lt.mpr hkf.le]
  | nan => simp [F32.le] at hx

theorem ofInt_le_fin (k T : ℤ) (h : k ≤ T) (hT : T.natAbs < 2 ^ 128 * 2 ^ 149) :
    F32.le (ofInt k) (F32.fin T) = true := by
  have := ofInt_le_ofInt k T h
  rwa [ofInt_of_lt T hT] at this

set_option maxRecDepth 100000 in
/-- The product of a frequency between 1 and `2 ^ 100` with the speed of sound -/
theorem mul_speedOfSound_fin (kf : ℤ) (hf1 : 2 ^ 149 ≤ kf) (hf2 : kf ≤ 2 ^ 100 * 2 ^ 149) :
    ∃ a : ℤ, F32.mul (F32.fin kf) SPEED_OF_SOUND = F32.fin a ∧ 343 * 2 ^ 149 ≤ a := by
  have a_lo : 343 * 2 ^ 149 ≤ roundInt (kf * (343 * 2 ^ 149)) (2 ^ 149) := by
    rw [← roundInt_unit_product]
    apply roundInt_mono _ _ _ _ (by positivity) (by positivity)
    apply div_le_div_of_nonneg_right _ (by positivity)
    have : 2 ^ 149 * (343 * 2 ^ 149) ≤ kf * (343 * 2 ^ 149) :=
      mul_le_mul_of_nonneg_right hf1 (by positivity)
    exact_mod_cast this
  have a_hi : roundInt (kf * (343 * 2 ^ 149)) (2 ^ 149) ≤ 343 * 2 ^ 100 * 2 ^ 149 := by
    rw [← roundInt_top_product]
    apply roundInt_mono _ _ _ _ (by positivity) (by positivity)
    apply div_le_div_of_nonneg_right _ (by positivity)
    have : kf * (343 * 2 ^ 149) ≤ 2 ^ 100 * 2 ^ 149 * (343 * 2 ^ 149) :=
      mul_le_mul_of_nonneg_right hf2 (by positivity)
    exact_mod_cast this
  refine ⟨_, ?_, a_lo⟩
  rw [speedOfSound32_eq]
  simp only [F32.mul, round]
  exact ofInt_of_lt _ (by omega)

set_option maxRecDepth 100000 in
/-- The moving-source value for a radial speed below -343 is not negative -/
theorem source_nonneg (a : ℤ) (ha : 0 ≤ a) (vr : F32)
    (hv : F32.lt vr (F32.fin (-(343 * 2 ^ 149))) = true) :
    F32.le (F32.fin 0) (F32.div (F32.fin a) (sourceDenom vr)) = true := by
  obtain ⟨_, hm686⟩ := milli_le
  have hinf : sourceDenom vr = F32.inf false →
      F32.le (F32.fin 0) (F32.div (F32.fin a) (sourceDenom vr)) = true := by
    intro e; rw [e]; rfl
  cases vr with
  | fin kv =>
    simp only [F32.lt, decide_eq_true_eq] at hv
    have hq : 686 * 2 ^ 149 ≤ roundInt (343 * 2 ^ 149 - kv) 1 := by
      rw [← roundInt_twice_speedOfSound]
      exact roundInt_one_mono _ _ (by omega)
    have hs := sub_speedOfSound_fin kv
    rcases ofInt_cases (roundInt (343 * 2 ^ 149 - kv) 1) with ⟨e, _⟩ | ⟨e, _, _⟩ | ⟨e, hn, _⟩
    · rw [e] at hs
      rw [sourceDenom_of_sub_fin _ _ hs, clampInt_of_le _ (by omega)]
      simp only [F32.div, round]
      rw [if_neg (by omega), if_neg (by omega)]
      apply ofInt_nonneg
      rw [← roundInt_zero (roundInt (343 * 2 ^ 149 - kv) 1).natAbs]
      exact roundInt_div_mono _ _ _ _ (le_refl 0) (by positivity) (by omega) (le_refl _)
    · rw [e] at hs
      exact hinf (sourceDenom_of_sub_inf _ _ hs)
    · exfalso; omega
  | inf s =>
    cases s
    · simp [F32.lt] at hv
    · apply hinf
      apply sourceDenom_of_sub_inf
      rw [speedOfSound32_eq]
      rfl
  | nan => simp [F32.lt] at hv

set_option maxRecDepth 100000 in
/-- The moving-source value for a radial speed between `-2 ^ 52` and -343 is positive -/
theorem source_pos (a kv : ℤ) (ha : 343 * 2 ^ 149 ≤ a) (h1 : -(2 ^ 201) ≤ kv)
    (h2 : kv < -(343 * 2 ^ 149)) :
    F32.lt (F32.fin 0) (F32.div (F32.fin a) (sourceDenom (F32.fin kv))) = true := by
  obtain ⟨_, hm686⟩ := milli_le
  have hq : 686 * 2 ^ 149 ≤ roundInt (343 * 2 ^ 149 - kv) 1 := by
    rw [← roundInt_twice_speedOfSound]
    exact roundInt_one_mono _ _ (by omega)
  have hq2 : roundInt (343 * 2 ^ 149 - kv) 1 ≤ 2 ^ 202 :=
    le_trans (roundInt_one_mono _ _ (by omega)) roundInt_moderate_diff
  have hs : F32.sub SPEED_OF_SOUND (F32.fin kv) =
      F32.fin (roundInt (343 * 2 ^ 149 - kv) 1) := by
    rw [sub_speedOfSound_fin]
    exact ofInt_of_lt _ (by omega)
  rw [sourceDenom_of_sub_fin _ _ hs, clampInt_of_le _ (by omega)]
  simp only [F32.div, round]
  rw [if_neg (by omega), if_neg (by omega)]
  apply ofInt_pos
  refine lt_of_lt_of_le roundInt_moderate_quotient ?_
  exact roundInt_div_mono _ _ _ _ (by positivity)
    (mul_le_mul_of_nonneg_right ha (by positivity)) (by omega) hq2

set_option maxRecDepth 100000 in
/-- The two modes at a radial speed below -343 -/
theorem asymmetry_far (kf : ℤ) (hf1 : 2 ^ 149 ≤ kf) (hf2 : kf ≤ 2 ^ 100 * 2 ^ 149) (vr : F32)
    (hv : F32.lt vr (F32.fin (-(343 * 2 ^ 149))) = true) :
    F32.lt
      (F32.div (F32.mul (F32.fin kf) (F32.add SPEED_OF_SOUND vr)) SPEED_OF_SOUND)
      (F32.div (F32.mul (F32.fin kf) SPEED_OF_SOUND) (sourceDenom vr)) = true := by
  obtain ⟨a, ea, ha⟩ := mul_speedOfSound_fin kf hf1 hf2
  have ha0 : 0 ≤ a := le_trans (by positivity) ha
  rw [ea]
  have hfar : F32.le (F32.add SPEED_OF_SOUND vr) (F32.fin (-(2 ^ 200))) = true →
      F32.lt (F32.div (F32.mul (F32.fin kf) (F32.add SPEED_OF_SOUND vr)) SPEED_OF_SOUND)
        (F32.div (F32.fin a) (sourceDenom vr)) = true := fun h =>
    lt_of_neg_of_nonneg _ _ (receiver_neg kf hf1 _ h) (source_nonneg a ha0 vr hv)
  cases vr with
  | fin kv =>
    simp only [F32.lt, decide_eq_true_eq] at hv
    have et : F32.add SPEED_OF_SOUND (F32.fin kv) = ofInt (roundInt (343 * 2 ^ 149 + kv) 1) := by
      rw [speedOfSound32_eq]; rfl
    rcases le_or_lt kv (-(2 ^ 201)) with h | h
    · apply hfar
      rw [et]
      apply ofInt_le_fin _ _ _ (by decide)
      exact le_trans (roundInt_one_mono _ _ (by omega)) roundInt_far_sum
    · apply lt_of_nonpos_of_pos _ _ _ (source_pos a kv ha h.le hv)
      apply receiver_nonpos kf hf1
      rw [et]
      apply ofInt_nonpos
      rw [← roundInt_zero 1]
      exact roundInt_one_mono _ _ (by omega)
  | inf s =>
    cases s
    · simp [F32.lt] at hv
    · apply hfar
      rw [speedOfSound32_eq]
      rfl
  | nan => simp [F32.lt] at hv

set_option maxRecDepth 100000 in
theorem lit_pow100_eq : lit (2 ^ 100) 1 = F32.fin (2 ^ 100 * 2 ^ 149) := by decide

set_option maxRecDepth 100000 in
theorem roundInt_top_back :
    roundInt (343 * 2 ^ 100 * 2 ^ 149 * 2 ^ 149) (343 * 2 ^ 149 : ℤ).natAbs =
      2 ^ 100 * 2 ^ 149 := by
  decide

set_option maxHeartbeats 1000000 in
set_option maxRecDepth 100000 in
/-- Multiplying by 343 and dividing by 343 again returns the number up to two
rounding errors -/
theorem mul_div_speedOfSound_rel (k : ℤ) (h1 : 2 ^ 149 ≤ k) (h2 : k ≤ 2 ^ 100 * 2 ^ 149) :
    ∃ r : ℤ, F32.div (F32.mul (F32.fin k) SPEED_OF_SOUND) SPEED_OF_SOUND = F32.fin r ∧
      |(r : ℚ) - k| ≤ (k : ℚ) / 2 ^ 22 := by
  obtain ⟨M, hM⟩ : ∃ M : ℚ, M = 2 ^ 149 := ⟨_, rfl⟩
  have hM0 : 0 < M := by rw [hM]; positivity
  have hMn : ((2 ^ 149 : ℕ) : ℚ) = M := by rw [hM]; push_cast; rfl
  have hMi : ((2 ^ 149 : ℤ) : ℚ) = M := by rw [hM]; push_cast; rfl
  have hM23 : (2 : ℚ) ^ 23 ≤ M := by rw [hM]; norm_num
  have hC : ((343 * 2 ^ 149 : ℤ) : ℚ) = 343 * M := by
    rw [Int.cast_mul, hMi]; norm_num
  have hCn : (((343 * 2 ^ 149 : ℤ).natAbs : ℕ) : ℚ) = 343 * M := by
    rw [natAbs_cast_abs, hC, abs_of_pos (by positivity)]
  have hk : M ≤ (k : ℚ) := by rw [← hMi]; exact_mod_cast h1
  have hk0 : (0 : ℤ) ≤ k := le_trans (by positivity) h1
  have a_lo : 343 * 2 ^ 149 ≤ roundInt (k * (343 * 2 ^ 149)) (2 ^ 149) := by
    rw [← roundInt_unit_product]
    apply roundInt_mono _ _ _ _ (by positivity) (by positivity)
    apply div_le_div_of_nonneg_right _ (by positivity)
    have : 2 ^ 149 * (343 * 2 ^ 149) ≤ k * (343 * 2 ^ 149) :=
      mul_le_mul_of_nonneg_right h1 (by positivity)
    exact_mod_cast this
  have a_hi : roundInt (k * (343 * 2 ^ 149)) (2 ^ 149) ≤ 343 * 2 ^ 100 * 2 ^ 149 := by
    rw [← roundInt_top_product]
    apply roundInt_mono _ _ _ _ (by positivity) (by positivity)
    apply div_le_div_of_nonneg_right _ (by positivity)
    have : k * (343 * 2 ^ 149) ≤ 2 ^ 100 * 2 ^ 149 * (343 * 2 ^ 149) :=
      mul_le_mul_of_nonneg_right h2 (by positivity)
    exact_mod_cast this
  have ea' : ((k * (343 * 2 ^ 149) : ℤ) : ℚ) / ((2 ^ 149 : ℕ) : ℚ) = 343 * (k : ℚ) := by
    rw [Int.cast_mul, hC, hMn]; field_simp; ring
  obtain ⟨a_rl, a_ru⟩ := roundInt_rel (k * (343 * 2 ^ 149)) (2 ^ 149) (by positivity)
    (by positivity) (by rw [ea']; nlinarith)
  rw [ea'] at a_rl a_ru
  have ea : F32.mul (F32.fin k) SPEED_OF_SOUND =
      F32.fin (roundInt (k * (343 * 2 ^ 149)) (2 ^ 149)) := by
    rw [speedOfSound32_eq]
    simp only [F32.mul, round]
    exact ofInt_of_lt _ (by omega)
  rw [ea]
  generalize roundInt (k * (343 * 2 ^ 149)) (2 ^ 149) = a at a_lo a_hi a_rl a_ru
  have ha0 : 0 ≤ a := le_trans (by positivity) a_lo
  have r_lo : 0 ≤ roundInt (a * 2 ^ 149) (343 * 2 ^ 149 : ℤ).natAbs := by
    rw [← roundInt_zero (343 * 2 ^ 149 : ℤ).natAbs]
    exact roundInt_div_mono _ _ _ _ (le_refl 0) (by positivity) (by positivity) (le_refl _)
  have r_hi : roundInt (a * 2 ^ 149) (343 * 2 ^ 149 : ℤ).natAbs ≤ 2 ^ 100 * 2 ^ 149 := by
    rw [← roundInt_top_back]
    exact roundInt_div_mono _ _ _ _ (by positivity)
      (mul_le_mul_of_nonneg_right a_hi (by positivity)) (by positivity) (le_refl _)
  have er : F32.div (F32.fin a) SPEED_OF_SOUND =
      F32.fin (roundInt (a * 2 ^ 149) (343 * 2 ^ 149 : ℤ).natAbs) := by
    rw [speedOfSound32_eq]
    simp only [F32.div, round]
    rw [if_neg (by norm_num), if_neg (by norm_num)]
    exact ofInt_of_lt _ (by omega)
  refine ⟨_, er, ?_⟩
  have er' : ((a * 2 ^ 149 : ℤ) : ℚ) / (((343 * 2 ^ 149 : ℤ).natAbs : ℕ) : ℚ) = (a : ℚ) / 343 := by
    rw [Int.cast_mul, hMi, hCn]; field_simp; ring
  have ha343 : 343 * M ≤ (a : ℚ) := by
    have := (Int.cast_le (R := ℚ)).mpr a_lo
    rwa [hC] at this
  obtain ⟨r_rl, r_ru⟩ := roundInt_rel (a * 2 ^ 149) (343 * 2 ^ 149 : ℤ).natAbs (by decide)
    (mul_nonneg ha0 (by positivity))
    (by rw [er', le_div_iff₀ (by norm_num)]; nlinarith)
  rw [er'] at r_rl r_ru
  generalize (roundInt (a * 2 ^ 149) (343 * 2 ^ 149 : ℤ).natAbs : ℚ) = r at r_rl r_ru
  have hkq : (0 : ℚ) < (k : ℚ) := lt_of_lt_of_le hM0 hk
  have u1 : (k : ℚ) * (1 - 1 / 2 ^ 24) ^ 2 ≤ r := by
    have : 343 * (k : ℚ) * (1 - 1 / 2 ^ 24) / 343 * (1 - 1 / 2 ^ 24) ≤ (a : ℚ) / 343 * (1 - 1 / 2 ^ 24) :=
      mul_le_mul_of_nonneg_right (div_le_div_of_nonneg_right a_rl (by norm_num)) (by norm_num)
    have e : 343 * (k : ℚ) * (1 - 1 / 2 ^ 24) / 343 * (1 - 1 / 2 ^ 24) =
        (k : ℚ) * (1 - 1 / 2 ^ 24) ^ 2 := by ring
    linarith
  have u2 : r ≤ (k : ℚ) * (1 + 1 / 2 ^ 24) ^ 2 := by
    have : (a : ℚ) / 343 * (1 + 1 / 2 ^ 24) ≤ 343 * (k : ℚ) * (1 + 1 / 2 ^ 24) / 343 * (1 + 1 / 2 ^ 24) :=
      mul_le_mul_of_nonneg_right (div_le_div_of_nonneg_right a_ru (by norm_num)) (by norm_num)
    have e : 343 * (k : ℚ) * (1 + 1 / 2 ^ 24) / 343 * (1 + 1 / 2 ^ 24) =
        (k : ℚ) * (1 + 1 / 2 ^ 24) ^ 2 := by ring
    linarith
  have c1 : (k : ℚ) * (1 + 1 / 2 ^ 24) ^ 2 ≤ k + k / 2 ^ 22 := by
    have : ((1 : ℚ) + 1 / 2 ^ 24) ^ 2 ≤ 1 + 1 / 2 ^ 22 := by norm_num
    have := mul_le_mul_of_nonneg_left this hkq.le
    linarith
  have c2 : (k : ℚ) - k / 2 ^ 22 ≤ k * (1 - 1 / 2 ^ 24) ^ 2 := by
    have : (1 : ℚ) - 1 / 2 ^ 22 ≤ (1 - 1 / 2 ^ 24) ^ 2 := by norm_num
    have := mul_le_mul_of_nonneg_left this hkq.le
    linarith
  rw [abs_le]
  constructor <;> linarith

/-! ## The binary32 reading: the values `ComputeDoppler` returns -/

set_option maxRecDepth 100000 in
/-- C4 as stated fails in binary32: at 999.1666870117188 Hz (a binary32 number,
one frame of the `[` key below 1000 Hz) with speed 0 and angle 0, for every
`cosf` with `cosf 0 = 1`, both modes return `fl(fl(f0 * 343) / 343)` =
999.166748046875 Hz, one unit in the last place above the base frequency. -/
theorem C4_counterexample :
    Representable (16370347 * 2 ^ 135) ∧
    (∀ cosf : F32 → F32, cosf (F32.fin 0) = lit 1 1 →
      ∀ m : Bool,
      (ComputeDoppler cosf
        { baseFreq := F32.fin (16370347 * 2 ^ 135), distance := lit 5 1, angleDeg := F32.fin 0,
          speed := F32.fin 0, movingSource := m, showHelp := true, showScreenshots := false }
        true).fObserved = F32.fin (16370348 * 2 ^ 135)) := by
  refine ⟨by decide, fun cosf h m => ?_⟩
  cases m
  · rw [fObserved32_receiver cosf _ true rfl]
    simp only [deg2rad32_zero, h]
    decide
  · rw [fObserved32_source cosf _ true rfl]
    simp only [deg2rad32_zero, h]
    decide

/-- C4, amended. With `speed = 0` and a finite `cosf` value, the radial speed
stored is 0 and both modes return the same observed frequency, the binary32
value of `(baseFreq * 343) / 343`.  It is exactly `baseFreq` whenever
`baseFreq * 343` is a binary32 number, and for `1 ≤ baseFreq ≤ 2 ^ 100` it is
within `baseFreq * 2 ^ (-22)` of `baseFreq`; it need not be equal. -/
theorem C4_zero_speed_rounded (cosf : F32 → F32) (st : DopplerState F32) (p : Bool)
    (h : st.speed = F32.fin 0) (hc : ∃ c : ℤ, cosf (deg2rad st.angleDeg) = F32.fin c) :
    (ComputeDoppler cosf st true).radialSpeed = some (F32.fin 0) ∧
    (ComputeDoppler cosf st p).fObserved =
      F32.div (F32.mul st.baseFreq SPEED_OF_SOUND) SPEED_OF_SOUND ∧
    (∀ k : ℤ, st.baseFreq = F32.fin k → Representable k → Representable (343 * k) →
      (ComputeDoppler cosf st p).fObserved = st.baseFreq) ∧
    (∀ k : ℤ, st.baseFreq = F32.fin k → 2 ^ 149 ≤ k → k ≤ 2 ^ 100 * 2 ^ 149 →
      ∃ r : ℤ, (ComputeDoppler cosf st p).fObserved = F32.fin r ∧
        |(r : ℚ) - k| ≤ (k : ℚ) / 2 ^ 22) := by
  obtain ⟨c, hc⟩ := hc
  have hv : F32.mul st.speed (cosf (deg2rad st.angleDeg)) = F32.fin 0 := by
    rw [h, hc, mul_zero_fin]
  have hf : (ComputeDoppler cosf st p).fObserved =
      F32.div (F32.mul st.baseFreq SPEED_OF_SOUND) SPEED_OF_SOUND := by
    cases hm : st.movingSource
    · rw [fObserved32_receiver cosf st p hm, hv, add_speedOfSound_zero]
    · rw [fObserved32_source cosf st p hm, hv, sourceDenom_zero]
  refine ⟨by rw [radialSpeed32_eq, hv], hf, fun k hk r1 r2 => ?_, fun k hk h1 h2 => ?_⟩
  · rw [hf, hk, mul_div_speedOfSound k r1 r2]
  · obtain ⟨r, er, hr⟩ := mul_div_speedOfSound_rel k h1 h2
    exact ⟨r, by rw [hf, hk, er], hr⟩

set_option maxRecDepth 100000 in
/-- Witness of C4 (amended): 1000 Hz at 37 degrees with speed 0, moving source,
with a `cosf` that returns 0.5: `1000 * 343` is a binary32 number and the
observed frequency is 1000 Hz. -/
theorem C4_zero_speed_rounded_witness :
    (ComputeDoppler (fun _ => lit 1 2)
      { baseFreq := lit 1000 1, distance := lit 5 1, angleDeg := lit 37 1,
        speed := F32.fin 0, movingSource := true, showHelp := true,
        showScreenshots := false } true).fObserved = lit 1000 1 :=
  (C4_zero_speed_rounded (fun _ => lit 1 2)
    { baseFreq := lit 1000 1, distance := lit 5 1, angleDeg := lit 37 1,
      speed := F32.fin 0, movingSource := true, showHelp := true,
      showScreenshots := false } true rfl ⟨2 ^ 148, by decide⟩).2.2.1
    (1000 * 2 ^ 149) (by decide) (by decide) (by decide)

set_option maxRecDepth 100000 in
/-- C6 as stated fails in binary32.  At 3133 Hz, speed 343 and angle 0, for
every `cosf` with `cosf 0 = 1`, the moving-source branch returns 1074619008,
above the claimed bound `3133 * 343 / 0.001 = 1074619000`; and at the finite
base frequency `1e36f` with speed 20 it returns `+inf`. -/
theorem C6_counterexample :
    (Representable (3133 * 2 ^ 149) ∧ Representable (343 * 2 ^ 149) ∧
      (∀ cosf : F32 → F32, cosf (F32.fin 0) = lit 1 1 →
        (ComputeDoppler cosf
          { baseFreq := F32.fin (3133 * 2 ^ 149), distance := lit 5 1, angleDeg := F32.fin 0,
            speed := F32.fin (343 * 2 ^ 149), movingSource := true, showHelp := true,
            showScreenshots := false } true).fObserved = F32.fin (1074619008 * 2 ^ 149)) ∧
      (3133 * 343 / 0.001 : ℚ) < 1074619008) ∧
    (lit (10 ^ 36) 1 = F32.fin (999999961690316245365415600208216064 * 2 ^ 149) ∧
      (∀ cosf : F32 → F32, cosf (F32.fin 0) = lit 1 1 →
        (ComputeDoppler cosf
          { baseFreq := lit (10 ^ 36) 1, distance := lit 5 1, angleDeg := F32.fin 0,
            speed := F32.fin (20 * 2 ^ 149), movingSource := true, showHelp := true,
            showScreenshots := false } true).fObserved = F32.inf false)) := by
  refine ⟨⟨by decide, by decide, fun cosf h => ?_, by norm_num⟩, by decide, fun cosf h => ?_⟩
  · rw [fObserved32_source cosf _ true rfl]
    simp only [deg2rad32_zero, h]
    decide
  · rw [fObserved32_source cosf _ true rfl]
    simp only [deg2rad32_zero, h]
    decide

/-- C6, amended. In moving-source mode the observed frequency is
`(baseFreq * 343) / d` in binary32 with `d` the clamped divisor; whenever the
radial speed is not NaN, `d` is not NaN, is not 0 and has absolute value at
least the constant `1e-3f`; and for a finite radial speed and `baseFreq ≥ 0`
the magnitude of the observed frequency is at most the binary32 value of
`(baseFreq * 343) / 1e-3f`, the value returned at the clamp (which is `+inf`
when it overflows). -/
theorem C6_divisor_and_clamp_bound (cosf : F32 → F32) (st : DopplerState F32) (p : Bool)
    (hm : st.movingSource = true) :
    (ComputeDoppler cosf st p).fObserved =
      F32.div (F32.mul st.baseFreq SPEED_OF_SOUND)
        (sourceDenom (F32.mul st.speed (cosf (deg2rad st.angleDeg)))) ∧
    (F32.mul st.speed (cosf (deg2rad st.angleDeg)) ≠ F32.nan →
      sourceDenom (F32.mul st.speed (cosf (deg2rad st.angleDeg))) ≠ F32.nan ∧
      sourceDenom (F32.mul st.speed (cosf (deg2rad st.angleDeg))) ≠ F32.fin 0 ∧
      F32.le (lit 1 1000)
        (F32.abs (sourceDenom (F32.mul st.speed (cosf (deg2rad st.angleDeg))))) = true) ∧
    (InRange (F32.mul st.speed (cosf (deg2rad st.angleDeg))) →
      F32.le (F32.fin 0) st.baseFreq = true →
      F32.le (F32.abs (ComputeDoppler cosf st p).fObserved)
        (F32.div (F32.mul st.baseFreq SPEED_OF_SOUND) (lit 1 1000)) = true) := by
  refine ⟨fObserved32_source cosf st p hm, sourceDenom_spec _, fun hr hf => ?_⟩
  rw [fObserved32_source cosf st p hm]
  obtain ⟨q, e, _⟩ := sourceDenom_inRange _ hr
  rw [e]
  exact abs_div_le_div_milli _ _ (mul_speedOfSound_cases _ hf) (clampInt_abs q)

set_option maxRecDepth 100000 in
/-- Witness of C6 (amended): 3133 Hz at speed 343 and angle 0 with
`cosf 0 = 1`: the observed frequency is within the value at the clamp. -/
theorem C6_divisor_and_clamp_bound_witness :
    F32.le
      (F32.abs (ComputeDoppler (fun _ => lit 1 1)
        { baseFreq := F32.fin (3133 * 2 ^ 149), distance := lit 5 1, angleDeg := F32.fin 0,
          speed := F32.fin (343 * 2 ^ 149), movingSource := true, showHelp := true,
          showScreenshots := false } true).fObserved)
      (F32.div (F32.mul (F32.fin (3133 * 2 ^ 149)) SPEED_OF_SOUND) (lit 1 1000)) = true :=
  (C6_divisor_and_clamp_bound (fun _ => lit 1 1)
    { baseFreq := F32.fin (3133 * 2 ^ 149), distance := lit 5 1, angleDeg := F32.fin 0,
      speed := F32.fin (343 * 2 ^ 149), movingSource := true, showHelp := true,
      showScreenshots := false } true rfl).2.2 ⟨343 * 2 ^ 149, by decide, by decide⟩ (by decide)

set_option maxRecDepth 100000 in
/-- C10 as stated fails in binary32.  At 765 Hz, speed 3/64 and angle 0, for
every `cosf` with `cosf 0 = 1`, the radial speed is 3/64 and the moving-source
value 765.10455322265625 is below the moving-receiver value 765.1046142578125.
At 1000 Hz, 90 degrees and 20 m/s, with the value the C library returns for
the cosine, the radial speed is about `-8.74e-7` and both modes return exactly
1000 Hz. -/
theorem C10_counterexample :
    (Representable (765 * 2 ^ 149) ∧ Representable (3 * 2 ^ 143) ∧
      ∀ cosf : F32 → F32, cosf (F32.fin 0) = lit 1 1 →
        (ComputeDoppler cosf
          { baseFreq := F32.fin (765 * 2 ^ 149), distance := lit 5 1, angleDeg := F32.fin 0,
            speed := F32.fin (3 * 2 ^ 143), movingSource := true, showHelp := true,
            showScreenshots := false } true).radialSpeed = some (F32.fin (3 * 2 ^ 143)) ∧
        (ComputeDoppler cosf
          { baseFreq := F32.fin (765 * 2 ^ 149), distance := lit 5 1, angleDeg := F32.fin 0,
            speed := F32.fin (3 * 2 ^ 143), movingSource := true, showHelp := true,
            showScreenshots := false } true).fObserved = F32.fin (12535473 * 2 ^ 135) ∧
        (ComputeDoppler cosf
          { baseFreq := F32.fin (765 * 2 ^ 149), distance := lit 5 1, angleDeg := F32.fin 0,
            speed := F32.fin (3 * 2 ^ 143), movingSource := false, showHelp := true,
            showScreenshots := false } true).fObserved = F32.fin (12535474 * 2 ^ 135)) ∧
    (∀ cosf : F32 → F32, cosf (deg2rad (lit 90 1)) = F32.fin (-(24607324 * 2 ^ 100)) →
      (ComputeDoppler cosf
        { baseFreq := lit 1000 1, distance := lit 5 1, angleDeg := lit 90 1,
          speed := lit 20 1, movingSource := true, showHelp := true,
          showScreenshots := false } true).radialSpeed = some (F32.fin (-(15379578 * 2 ^ 105))) ∧
      (ComputeDoppler cosf
        { baseFreq := lit 1000 1, distance := lit 5 1, angleDeg := lit 90 1,
          speed := lit 20 1, movingSource := true, showHelp := true,
          showScreenshots := false } true).fObserved = lit 1000 1 ∧
      (ComputeDoppler cosf
        { baseFreq := lit 1000 1, distance := lit 5 1, angleDeg := lit 90 1,
          speed := lit 20 1, movingSource := false, showHelp := true,
          showScreenshots := false } true).fObserved = lit 1000 1) := by
  refine ⟨⟨by decide, by decide, fun cosf h => ⟨?_, ?_, ?_⟩⟩, fun cosf h => ⟨?_, ?_, ?_⟩⟩
  · rw [radialSpeed32_eq]
    simp only [deg2rad32_zero, h]
    decide
  · rw [fObserved32_source cosf _ true rfl]
    simp only [deg2rad32_zero, h]
    decide
  · rw [fObserved32_receiver cosf _ true rfl]
    simp only [deg2rad32_zero, h]
    decide
  · rw [radialSpeed32_eq]
    simp only [h]
    decide
  · rw [fObserved32_source cosf _ true rfl]
    simp only [h]
    decide
  · rw [fObserved32_receiver cosf _ true rfl]
    simp only [h]
    decide

set_option maxRecDepth 100000 in
/-- C10, amended. For `1 ≤ baseFreq ≤ 2 ^ 100` and a radial speed
`vr = speed * cosf (deg2rad angleDeg)` (as the program computes it) with
`|vr| ≥ 1` and `vr ≤ 343`, the observed frequency in moving-source mode is
strictly greater than the one in moving-receiver mode for the same
parameters, the clamp zone included. -/
theorem C10_mode_asymmetry_rounded (cosf : F32 → F32) (st : DopplerState F32) (p : Bool)
    (hf1 : F32.le (lit 1 1) st.baseFreq = true)
    (hf2 : F32.le st.baseFreq (lit (2 ^ 100) 1) = true)
    (hv1 : F32.le (lit 1 1) (F32.abs (F32.mul st.speed (cosf (deg2rad st.angleDeg)))) = true)
    (hv3 : F32.le (F32.mul st.speed (cosf (deg2rad st.angleDeg))) SPEED_OF_SOUND = true) :
    F32.lt (ComputeDoppler cosf { st with movingSource := false } p).fObserved
      (ComputeDoppler cosf { st with movingSource := true } p).fObserved = true := by
  rw [fObserved32_receiver cosf _ p rfl, fObserved32_source cosf _ p rfl]
  simp only
  rw [lit_one_eq] at hf1 hv1
  rw [lit_pow100_eq] at hf2
  rw [speedOfSound32_eq] at hv3
  generalize F32.mul st.speed (cosf (deg2rad st.angleDeg)) = vr at hv1 hv3
  cases hb : st.baseFreq with
  | fin kf =>
    rw [hb] at hf1 hf2
    simp only [F32.le, decide_eq_true_eq] at hf1 hf2
    cases vr with
    | fin kv =>
      simp only [F32.le, F32.abs, decide_eq_true_eq, Int.natCast_natAbs] at hv1 hv3
      rcases le_or_lt (-(343 * 2 ^ 149)) kv with h | h
      · exact asymmetry_fin kf kv hf1 hf2 h hv3 hv1
      · exact asymmetry_far kf hf1 hf2 _ (by simpa [F32.lt] using h)
    | inf s =>
      cases s
      · simp [F32.le] at hv3
      · exact asymmetry_far kf hf1 hf2 _ rfl
    | nan => simp [F32.le] at hv3
  | inf s =>
    rw [hb] at hf1 hf2
    cases s <;> simp [F32.le] at hf1 hf2
  | nan =>
    rw [hb] at hf1
    simp [F32.le] at hf1

set_option maxRecDepth 100000 in
/-- Witness of C10 (amended) at the start parameters of `main` (1000 Hz,
0 degrees, 20 m/s) with `cosf 0 = 1`. -/
theorem C10_mode_asymmetry_rounded_witness :
    F32.lt
      (ComputeDoppler (fun _ => lit 1 1)
        { baseFreq := lit 1000 1, distance := lit 5 1, angleDeg := F32.fin 0,
          speed := lit 20 1, movingSource := false, showHelp := true,
          showScreenshots := false } true).fObserved
      (ComputeDoppler (fun _ => lit 1 1)
        { baseFreq := lit 1000 1, distance := lit 5 1, angleDeg := F32.fin 0,
          speed := lit 20 1, movingSource := true, showHelp := true,
          showScreenshots := false } true).fObserved = true :=
  C10_mode_asymmetry_rounded (fun _ => lit 1 1)
    { baseFreq := lit 1000 1, distance := lit 5 1, angleDeg := F32.fin 0,
      speed := lit 20 1, movingSource := true, showHelp := true,
      showScreenshots := false } true (by decide) (by decide) (by decide) (by decide)

end Binary32

end Doppler
